import Mathlib

/-!
Shallow embedding of the Agentic-Scraper repository (two Python scrapers:
`informasi-scraper` and `jalur_pendaftaran-scraper`), with proofs checking the
natural-language specification against the code.

Python strings are modelled as `List Char` (`Str`).  Python's `str.lower`,
`str.strip`, `\d`, `\s` are modelled at ASCII level, which is exact for the
ASCII data these scrapers handle (URLs, emails, phone digits, keyword lists).
Regular expressions from the source are compiled by hand into deterministic
matchers implementing Python's leftmost, greedy-with-backtracking semantics
for the specific patterns involved.
-/

namespace Py

/-- Python `str` modelled as a list of unicode characters. -/
abbrev Str := List Char

/-- ASCII whitespace recognised by Python's `str.strip()` / `\s`. -/
def isPySpace (c : Char) : Bool :=
  c = ' ' || c = '\t' || c = '\n' || c = '\x0d' || c = '\x0b' || c = '\x0c'

/-- ASCII decimal digit, Python `\d` on the data in play. -/
def isPyDigit (c : Char) : Bool := '0' ≤ c && c ≤ '9'

def isAsciiUpper (c : Char) : Bool := 'A' ≤ c && c ≤ 'Z'

def isAsciiLower (c : Char) : Bool := 'a' ≤ c && c ≤ 'z'

def isAsciiAlpha (c : Char) : Bool := isAsciiUpper c || isAsciiLower c

def isAsciiAlnum (c : Char) : Bool := isAsciiAlpha c || isPyDigit c

/-- `str.lower` on one character (ASCII case folding). -/
def lowerChar (c : Char) : Char :=
  if isAsciiUpper c then Char.ofNat (c.toNat + 32) else c

/-- Python `str.lower()`. -/
def pyLower (s : Str) : Str := s.map lowerChar

/-- Python `str.strip()` (no argument: strip whitespace on both ends). -/
def pyStrip (s : Str) : Str :=
  ((s.dropWhile isPySpace).reverse.dropWhile isPySpace).reverse

/-- Python `needle in hay` (substring containment). -/
def inStr (needle hay : Str) : Bool := decide (needle <:+: hay)

/-- Python `s.startswith(p)`. -/
def startsWith (p s : Str) : Bool := List.isPrefixOf p s

/-- Python `s.endswith(p)`. -/
def endsWith (p s : Str) : Bool := List.isSuffixOf p s

/-- Case-insensitive prefix test (for `re.I` literal pattern fragments). -/
def startsWithCI (p s : Str) : Bool := List.isPrefixOf (pyLower p) (pyLower s)

/-- Python `"sep".join(xs)`. -/
def joinWith (sep : Str) : List Str → Str
  | [] => []
  | [x] => x
  | x :: y :: rest => x ++ sep ++ joinWith sep (y :: rest)

end Py

namespace Extractors

open Py

/-!  `informasi-scraper/app/extractors.py` — the Evidence Gate.

The Python dict holding the proposed record has 14 keys; the gate reads and
rewrites exactly the seven contact/social keys below and leaves the others
untouched apart from the final blank→"-"/trim pass, so the record is modelled
by its seven contact/social fields. -/

/-- Character class `[a-zA-Z0-9._%+\-]` (local part of `RE_EMAIL`). -/
def isLocalChar (c : Char) : Bool :=
  isAsciiAlnum c || c = '.' || c = '_' || c = '%' || c = '+' || c = '-'

/-- Character class `[a-zA-Z0-9.\-]` (domain part of `RE_EMAIL`). -/
def isDomainChar (c : Char) : Bool :=
  isAsciiAlnum c || c = '.' || c = '-'

/-- The alpha run after index `k` of `d` (candidate `[a-zA-Z]{2,}` tail). -/
def alphaTail (d : Str) (k : Nat) : Str :=
  (d.drop (k+1)).takeWhile isAsciiAlpha

/-- A dot position `k` inside the maximal domain-char run `d` at which the
`\.[a-zA-Z]{2,}` suffix of `RE_EMAIL` can match: `d[k] = '.'` with a nonempty
`D+` before it and at least two letters after it. -/
def dotOk (d : Str) (k : Nat) : Bool :=
  1 ≤ k && (d.drop k).take 1 = ['.'] && 2 ≤ (alphaTail d k).length

/-- The largest workable dot position (greedy `D+` backtracks from the right,
so Python keeps the longest `D+` prefix that still lets the tail match). -/
def bestDot (d : Str) : Option Nat :=
  (List.range d.length).reverse.find? (dotOk d)

/-- Match of `RE_EMAIL = [a-zA-Z0-9._%+\-]+@[a-zA-Z0-9.\-]+\.[a-zA-Z]{2,}`
anchored at the head of `s` under Python's leftmost-greedy semantics: the
local part is the maximal run of local chars (necessarily followed by `@`
since `@` is not a local char); the domain-plus-tail is resolved by greedy
backtracking inside the maximal domain-char run, and the letter tail is then
extended greedily. -/
def emailMatchAt (s : Str) : Option Str :=
  let l := s.takeWhile isLocalChar
  if l.isEmpty then none
  else
    match s.drop l.length with
    | '@' :: rest =>
      let d := rest.takeWhile isDomainChar
      match bestDot d with
      | some k => some (l ++ '@' :: (d.take k ++ '.' :: alphaTail d k))
      | none => none
    | _ => none

/-- `re.search` for an anchored matcher `m`: try a match at every
position, leftmost wins. -/
def searchWith (m : Str → Option Str) : Str → Option Str
  | [] => m []
  | c :: t =>
    match m (c :: t) with
    | some r => some r
    | none => searchWith m t

/-- `re.search(RE_EMAIL, s)`. -/
def emailSearch (s : Str) : Option Str := searchWith emailMatchAt s

/-- `RE_EMAIL.fullmatch(s)`: the whole string is `L+ @ D+ . alpha{2,}`. -/
def emailFullmatch (s : Str) : Bool :=
  let l := s.takeWhile isLocalChar
  if l.isEmpty then false
  else
    match s.drop l.length with
    | '@' :: rest =>
      match (List.range rest.length).reverse.find?
          (fun k => (rest.drop k).take 1 = ['.']) with
      | some k =>
        1 ≤ k && (rest.take k).all isDomainChar &&
          (rest.drop (k+1)).all isAsciiAlpha && 2 ≤ rest.length - (k+1)
      | none => false
    | _ => false

/-- Middle class `[\d\-\s\(\)]` of `RE_PHONE`. -/
def isPhoneMid (c : Char) : Bool :=
  isPyDigit c || c = '-' || isPySpace c || c = '(' || c = ')'

/-- Match of `\d[\d\-\s\(\)]{7,}\d` (the part of `RE_PHONE` after the
optional `+`) at the head of `s`: after the first digit, the greedy `{7,}`
backtracks from the maximal run until the final `\d` fits. -/
def phoneCore (s : Str) : Option Str :=
  match s with
  | c :: rest =>
    if isPyDigit c then
      let m := rest.takeWhile isPhoneMid
      match (List.range m.length).reverse.find?
          (fun t => 7 ≤ t && (m.drop t).take 1 ≠ [] &&
            ((m.drop t).take 1).all isPyDigit) with
      | some t => some (s.take (t + 2))
      | none => none
    else none
  | [] => none

/-- Match of `RE_PHONE = (\+?\d[\d\-\s\(\)]{7,}\d)` at the head of `s`.
If the optional `+` is taken but the rest fails, the engine retries without
the `+`, which then requires a digit at the `+` — impossible, so it fails. -/
def phoneMatchAt (s : Str) : Option Str :=
  match s with
  | '+' :: rest => (phoneCore rest).map (fun r => '+' :: r)
  | _ => phoneCore s

/-- Scanner for `RE_PHONE.findall`; the fuel only bounds recursion depth and
`s.length` steps always suffice since every step consumes ≥ 1 character. -/
def phoneFindAllAux : Nat → Str → List Str
  | 0, _ => []
  | _+1, [] => []
  | fuel+1, c :: t =>
    match phoneMatchAt (c :: t) with
    | some r => r :: phoneFindAllAux fuel (t.drop (r.length - 1))
    | none => phoneFindAllAux fuel t

/-- `RE_PHONE.findall(s)`: non-overlapping leftmost matches.  Every match has
length ≥ 9, so after a match at position `p` of length `L` the scan resumes
`L - 1` characters into the tail (`t.drop (r.length - 1)`). -/
def phoneFindAll (s : Str) : List Str := phoneFindAllAux s.length s

/-- The digit run consumed by a `\d+` in `RE_WA_URL`. -/
def digitsRun (s : Str) : Str := s.takeWhile isPyDigit

/-- Match of `RE_WA_URL = (wa\.me\/\d+|whatsapp\.com\/|api\.whatsapp\.com\/
send\?phone=\d+)` (re.I) at the head of `s`; alternatives are tried left to
right, and the match is the original-case slice of `s`. -/
def waMatchAt (s : Str) : Option Str :=
  if startsWithCI "wa.me/".data s && !(digitsRun (s.drop 6)).isEmpty then
    some (s.take (6 + (digitsRun (s.drop 6)).length))
  else if startsWithCI "whatsapp.com/".data s then
    some (s.take 13)
  else if startsWithCI "api.whatsapp.com/send?phone=".data s &&
      !(digitsRun (s.drop 28)).isEmpty then
    some (s.take (28 + (digitsRun (s.drop 28)).length))
  else none

/-- `re.search(RE_WA_URL, s)`, leftmost match. -/
def waSearch (s : Str) : Option Str := searchWith waMatchAt s

/-- `_digits_only`: `re.sub(r"\D", "", s)`. -/
def digits_only (s : Str) : Str := s.filter isPyDigit

/-- `_clean_phone`: strip, then keep only `+` and digits. -/
def clean_phone (s : Str) : Str :=
  (pyStrip s).filter (fun c => isPyDigit c || c = '+')

/-- `_in_blob`: falsy or sentinel values never match; otherwise the stripped,
lowercased value must be a substring of the lowercased blob. -/
def in_blob (value blob : Str) : Bool :=
  if value = [] || value = ['-'] then false
  else inStr (pyLower (pyStrip value)) (pyLower blob)

/-- `_any_domain_in_links`: first link whose lowercase form contains one of
the domains, else `""`. -/
def any_domain_in_links (domains : List Str) (links : List Str) : Str :=
  match links with
  | [] => []
  | u :: rest =>
    if domains.any (fun d => inStr d (pyLower u)) then u
    else any_domain_in_links domains rest

/-- `_sanitize_url`: accept only http(s) URLs. -/
def sanitize_url (u0 : Str) : Str :=
  let u := pyStrip u0
  if u = [] || u = ['-'] then ['-']
  else if startsWith "http://".data u || startsWith "https://".data u then u
  else ['-']

/-- `_sanitize_email`: strip, unwrap `mailto:`, then `RE_EMAIL.fullmatch`. -/
def sanitize_email (u0 : Str) : Str :=
  let u := pyStrip u0
  if u = [] || u = ['-'] then ['-']
  else
    let u := if startsWith "mailto:".data (pyLower u) then pyStrip (u.drop 7) else u
    if emailFullmatch u then u else ['-']

/-- `_sanitize_phone`: clean, then require 9–15 digits. -/
def sanitize_phone (u0 : Str) : Str :=
  let u := clean_phone u0
  let digits := digits_only u
  if 9 ≤ digits.length ∧ digits.length ≤ 15 then u else ['-']

/-- `_sanitize_whatsapp`: keep WhatsApp deeplinks, else fall back to the
phone sanitizer. -/
def sanitize_whatsapp (u0 : Str) : Str :=
  let u := pyStrip u0
  if u = [] || u = ['-'] then ['-']
  else if (waSearch u).isSome then u
  else
    let ph := sanitize_phone u
    if ph ≠ ['-'] then ph else ['-']

/-- The seven contact/social fields of the proposed record that
`enforce_evidence_info` reads and rewrites. -/
structure Info where
  email : Str
  phone : Str
  whatsapp : Str
  facebook : Str
  instagram : Str
  twitter : Str
  youtube : Str

/-- The final pass over every key: blank/None becomes `"-"`, then strip. -/
def finalTrim (v : Str) : Str :=
  if pyStrip v = [] then ['-'] else pyStrip v

/-- The evidence blob: `text + "\n" + "\n".join(links)`. -/
def mkBlob (text : Str) (links : List Str) : Str :=
  text ++ '\n' :: joinWith ['\n'] links

/-- The per-network social branch of `enforce_evidence_info`: sanitize the
URL, drop it on a wrong domain or on missing evidence, else recover a URL
from the outbound links. -/
def socialField (domains : List Str) (links : List Str) (blob : Str)
    (v : Str) : Str :=
  let val := sanitize_url v
  let val :=
    if val ≠ ['-'] ∧ ¬ (domains.any (fun d => inStr d (pyLower val)) = true)
    then ['-'] else val
  let val := if val ≠ ['-'] ∧ in_blob val blob = false then ['-'] else val
  if val = ['-'] then
    let found := any_domain_in_links domains links
    if found = [] then ['-'] else found
  else val

/-- The first phone-shaped token of the blob that survives the sanitizer. -/
def pickPhone : List Str → Str
  | [] => ['-']
  | r :: rest =>
    let cand := sanitize_phone r
    if cand ≠ ['-'] then cand else pickPhone rest

/-- The EMAIL block of `enforce_evidence_info`: an unsupported proposal is
replaced by the first email the regex recovers from the blob, else `"-"`. -/
def emailField (blob : Str) (proposed : Str) : Str :=
  let email := sanitize_email proposed
  if email ≠ ['-'] ∧ in_blob email blob = false then
    match emailSearch blob with
    | some found => found
    | none => ['-']
  else email

/-- The PHONE block of `enforce_evidence_info`: evidence is checked on the
digits-only projections; on failure the blob is scanned for phone tokens. -/
def phoneField (blob : Str) (proposed : Str) : Str :=
  let phone := sanitize_phone proposed
  if phone ≠ ['-'] ∧ in_blob (digits_only phone) (digits_only blob) = false
  then pickPhone (phoneFindAll blob)
  else phone

/-- The WHATSAPP block of `enforce_evidence_info`: requires any WhatsApp
evidence in the blob, and prefers a deeplink URL found in the blob. -/
def waField (blob : Str) (proposed : Str) : Str :=
  let wa := sanitize_whatsapp proposed
  let waHasEvidence := (waSearch blob).isSome
    || inStr "whatsapp".data (pyLower blob) || inStr "wa ".data (pyLower blob)
  if wa ≠ ['-'] ∧ waHasEvidence = false then ['-']
  else
    match waSearch blob with
    | some waUrl => waUrl
    | none => wa

/-- `enforce_evidence_info` (extractors.py lines 177–250). -/
def enforce_evidence_info (info : Info) (text : Str) (links : List Str) :
    Info :=
  let blob := mkBlob text links
  { email := finalTrim (emailField blob info.email)
    phone := finalTrim (phoneField blob info.phone)
    whatsapp := finalTrim (waField blob info.whatsapp)
    facebook :=
      finalTrim (socialField ["facebook.com".data, "fb.com".data] links blob
        info.facebook)
    instagram :=
      finalTrim (socialField ["instagram.com".data] links blob info.instagram)
    twitter :=
      finalTrim (socialField ["twitter.com".data, "x.com".data] links blob
        info.twitter)
    youtube :=
      finalTrim (socialField ["youtube.com".data, "youtu.be".data] links blob
        info.youtube) }

end Extractors

namespace UrlPy

open Py

/-!  A shallow embedding of the parts of CPython 3.11 `urllib.parse` used by
the repository: `urlparse`/`urlsplit` (with the `ValueError` raises),
`urlunparse`/`urlunsplit`, `parse_qsl(..., keep_blank_values=True)`,
`urlencode` with `quote_plus`, and `unquote`.  Percent-decoding goes through
UTF-8 exactly as CPython's `bytes.decode("utf-8", "replace")` does (one
replacement character per maximal invalid subsequence).  The only
approximation is `_check_bracketed_host`, whose `ipaddress` parse is
modelled by a shape check on the bracketed literal; both parse passes run
the same check, which is all the theorems rely on. -/

/-- `_WHATWG_C0_CONTROL_OR_SPACE` membership (codepoints ≤ 0x20). -/
def isC0OrSpace (c : Char) : Bool := decide (c.toNat ≤ 32)

/-- Removal of `_UNSAFE_URL_BYTES_TO_REMOVE` = tab, CR, LF. -/
def removeUnsafe (s : Str) : Str :=
  s.filter (fun c => !(c = '\t' || c = '\x0d' || c = '\n'))

/-- `scheme_chars`: letters, digits, and `+-.`. -/
def isSchemeChar (c : Char) : Bool :=
  isAsciiAlnum c || c = '+' || c = '-' || c = '.'

def uses_netloc : List Str :=
  (["", "ftp", "http", "gopher", "nntp", "telnet", "imap", "wais", "file",
    "mms", "https", "shttp", "snews", "prospero", "rtsp", "rtsps", "rtspu",
    "rsync", "svn", "svn+ssh", "sftp", "nfs", "git", "git+ssh", "ws",
    "wss"]).map String.data

def uses_params : List Str :=
  (["", "ftp", "hdl", "prospero", "http", "imap", "https", "shttp", "rtsp",
    "rtsps", "rtspu", "sip", "sips", "mms", "sftp", "tel"]).map String.data

/-- The five components of `urlsplit`. -/
structure SplitResult where
  scheme : Str
  netloc : Str
  path : Str
  query : Str
  fragment : Str
deriving DecidableEq

/-- The six components of `urlparse`. -/
structure ParseResult where
  scheme : Str
  netloc : Str
  path : Str
  params : Str
  query : Str
  fragment : Str
deriving DecidableEq

/-- Python `s.split(c, 1)` when `c ∈ s`: the pieces before and after the
first occurrence. -/
def splitFirst (c : Char) (s : Str) : Str × Str :=
  (s.takeWhile (· ≠ c), s.drop ((s.takeWhile (· ≠ c)).length + 1))

/-- The scheme-detection step of `urlsplit`. -/
def schemeSplit (url : Str) : Str × Str :=
  match url.findIdx? (· = ':') with
  | some i =>
    if 0 < i ∧ (url.take 1).all isAsciiAlpha ∧ (url.take i).all isSchemeChar
    then (pyLower (url.take i), url.drop (i+1))
    else ([], url)
  | none => ([], url)

/-- `_splitnetloc(url, 2)`: the authority runs to the first `/?#`. -/
def splitNetloc (url : Str) : Str × Str :=
  let rest := url.drop 2
  let n := rest.takeWhile (fun c => !(c = '/' || c = '?' || c = '#'))
  (n, rest.drop n.length)

def isHexDigit (c : Char) : Bool :=
  isPyDigit c || ('a' ≤ c && c ≤ 'f') || ('A' ≤ c && c ≤ 'F')

/-- Modelled approximation of `_check_bracketed_host`: accepts `v HEX+ . x+`
IPvFuture literals and IPv6-shaped literals (hex/colon/dot containing a
colon); CPython delegates the latter to `ipaddress.ip_address`. -/
def validBracketHost (h : Str) : Bool :=
  if startsWith "v".data h then
    let hx := (h.drop 1).takeWhile isHexDigit
    decide (1 ≤ hx.length) && ((h.drop (1 + hx.length)).take 1 = ['.']) &&
      decide (1 ≤ (h.drop (1 + hx.length + 1)).length)
  else
    h ≠ [] && h.all (fun c => isHexDigit c || c = ':' || c = '.') &&
      inStr ":".data h

/-- `urlsplit(url)` (3.11 semantics, default `scheme=''`,
`allow_fragments=True`); `Except.error` models the `ValueError` raises. -/
def urlsplitE (url0 : Str) : Except Str SplitResult :=
  let url := removeUnsafe (url0.dropWhile isC0OrSpace)
  let sp := schemeSplit url
  let scheme := sp.1
  let url := sp.2
  let netlocStep : Except Str (Str × Str) :=
    if startsWith "//".data url then
      let nl := splitNetloc url
      let netloc := nl.1
      if ('[' ∈ netloc ∧ ']' ∉ netloc) ∨ (']' ∈ netloc ∧ '[' ∉ netloc) then
        Except.error "Invalid IPv6 URL".data
      else if '[' ∈ netloc ∧ ']' ∈ netloc then
        let bh := ((netloc.dropWhile (· ≠ '[')).drop 1).takeWhile (· ≠ ']')
        if validBracketHost bh then Except.ok nl
        else Except.error "invalid bracketed host".data
      else Except.ok nl
    else Except.ok ([], url)
  match netlocStep with
  | Except.error e => Except.error e
  | Except.ok nl =>
    let netloc := nl.1
    let url := nl.2
    let fs := if '#' ∈ url then splitFirst '#' url else (url, [])
    let qs := if '?' ∈ fs.1 then splitFirst '?' fs.1 else (fs.1, [])
    Except.ok ⟨scheme, netloc, qs.1, qs.2, fs.2⟩

/-- Last index of a character satisfying `p` (Python `str.rfind`). -/
def rfindIdx (p : Char → Bool) (s : Str) : Option Nat :=
  (List.range s.length).reverse.find? (fun k => ((s.drop k).take 1).all p &&
    (s.drop k).take 1 ≠ [])

/-- First index ≥ `start` of a character satisfying `p`. -/
def findIdxFrom (p : Char → Bool) (start : Nat) (s : Str) : Option Nat :=
  ((s.drop start).findIdx? p).map (· + start)

/-- `_splitparams`. -/
def splitparams (url : Str) : Str × Str :=
  if '/' ∈ url then
    match rfindIdx (· = '/') url with
    | some j =>
      match findIdxFrom (· = ';') j url with
      | some i => (url.take i, url.drop (i+1))
      | none => (url, [])
    | none => (url, [])
  else
    match url.findIdx? (· = ';') with
    | some i => (url.take i, url.drop (i+1))
    | none => (url, [])

/-- `urlparse(url)`. -/
def urlparseE (u : Str) : Except Str ParseResult :=
  match urlsplitE u with
  | Except.error e => Except.error e
  | Except.ok s =>
    if s.scheme ∈ uses_params ∧ ';' ∈ s.path then
      let pp := splitparams s.path
      Except.ok ⟨s.scheme, s.netloc, pp.1, pp.2, s.query, s.fragment⟩
    else Except.ok ⟨s.scheme, s.netloc, s.path, [], s.query, s.fragment⟩

/-- `urlunsplit`. -/
def urlunsplit (scheme netloc path query fragment : Str) : Str :=
  let url := path
  let url :=
    if netloc ≠ [] ∨
        (scheme ≠ [] ∧ scheme ∈ uses_netloc ∧ ¬ startsWith "//".data url) then
      let url2 := if url ≠ [] ∧ ¬ startsWith "/".data url then '/' :: url
        else url
      '/' :: '/' :: (netloc ++ url2)
    else url
  let url := if scheme ≠ [] then scheme ++ ':' :: url else url
  let url := if query ≠ [] then url ++ '?' :: query else url
  if fragment ≠ [] then url ++ '#' :: fragment else url

/-- `urlunparse`. -/
def urlunparse (scheme netloc path params query fragment : Str) : Str :=
  urlunsplit scheme netloc
    (if params ≠ [] then path ++ ';' :: params else path) query fragment

/-! percent-coding: `quote_plus`, `unquote`, UTF-8 with `errors="replace"` -/

def hexVal (c : Char) : Nat :=
  if 'a' ≤ c then c.toNat - 87 else if 'A' ≤ c then c.toNat - 55
  else c.toNat - 48

/-- Uppercase hex digit, as produced by CPython's `_Quoter` (`%02X`). -/
def hexDigitUpper (n : Nat) : Char :=
  if n < 10 then Char.ofNat (48 + n) else Char.ofNat (55 + n)

/-- UTF-8 encoding of one character (Python `str.encode("utf-8")`). -/
def utf8Encode (c : Char) : List Nat :=
  let n := c.toNat
  if n < 0x80 then [n]
  else if n < 0x800 then [0xC0 + n / 64, 0x80 + n % 64]
  else if n < 0x10000 then
    [0xE0 + n / 4096, 0x80 + (n / 64) % 64, 0x80 + n % 64]
  else
    [0xF0 + n / 262144, 0x80 + (n / 4096) % 64, 0x80 + (n / 64) % 64,
     0x80 + n % 64]

/-- The replacement character U+FFFD. -/
def repl : Char := Char.ofNat 0xFFFD

/-- Continuation byte. -/
def cont (b : Nat) : Bool := 0x80 ≤ b && b ≤ 0xBF

/-- Allowed second byte of a three-byte sequence (excludes overlong forms
and surrogates, as CPython's strict UTF-8 decoder does). -/
def cont2of3 (b b2 : Nat) : Bool :=
  if b = 0xE0 then 0xA0 ≤ b2 && b2 ≤ 0xBF
  else if b = 0xED then 0x80 ≤ b2 && b2 ≤ 0x9F
  else cont b2

/-- Allowed second byte of a four-byte sequence. -/
def cont2of4 (b b2 : Nat) : Bool :=
  if b = 0xF0 then 0x90 ≤ b2 && b2 ≤ 0xBF
  else if b = 0xF4 then 0x80 ≤ b2 && b2 ≤ 0x8F
  else cont b2

def chr2 (b b2 : Nat) : Char := Char.ofNat ((b - 0xC0) * 64 + (b2 - 0x80))

def chr3 (b b2 b3 : Nat) : Char :=
  Char.ofNat ((b - 0xE0) * 4096 + (b2 - 0x80) * 64 + (b3 - 0x80))

def chr4 (b b2 b3 b4 : Nat) : Char :=
  Char.ofNat ((b - 0xF0) * 262144 + (b2 - 0x80) * 4096 + (b3 - 0x80) * 64 +
    (b4 - 0x80))

/-- Scanner for UTF-8 decoding with replacement; every step consumes at
least one byte, so `bs.length` fuel always suffices. -/
def utf8DecodeAux : Nat → List Nat → Str
  | 0, _ => []
  | _+1, [] => []
  | fuel+1, b :: bs =>
    if b < 0x80 then Char.ofNat b :: utf8DecodeAux fuel bs
    else if 0xC2 ≤ b ∧ b ≤ 0xDF then
      match bs with
      | b2 :: rest =>
        if cont b2 then chr2 b b2 :: utf8DecodeAux fuel rest
        else repl :: utf8DecodeAux fuel (b2 :: rest)
      | [] => [repl]
    else if 0xE0 ≤ b ∧ b ≤ 0xEF then
      match bs with
      | b2 :: bs2 =>
        if cont2of3 b b2 then
          match bs2 with
          | b3 :: rest =>
            if cont b3 then chr3 b b2 b3 :: utf8DecodeAux fuel rest
            else repl :: utf8DecodeAux fuel (b3 :: rest)
          | [] => [repl]
        else repl :: utf8DecodeAux fuel (b2 :: bs2)
      | [] => [repl]
    else if 0xF0 ≤ b ∧ b ≤ 0xF4 then
      match bs with
      | b2 :: bs2 =>
        if cont2of4 b b2 then
          match bs2 with
          | b3 :: bs3 =>
            if cont b3 then
              match bs3 with
              | b4 :: rest =>
                if cont b4 then chr4 b b2 b3 b4 :: utf8DecodeAux fuel rest
                else repl :: utf8DecodeAux fuel (b4 :: rest)
              | [] => [repl]
            else repl :: utf8DecodeAux fuel (b3 :: bs3)
          | [] => [repl]
        else repl :: utf8DecodeAux fuel (b2 :: bs2)
      | [] => [repl]
    else repl :: utf8DecodeAux fuel bs

/-- `bytes.decode("utf-8", errors="replace")`: strict UTF-8 with one U+FFFD
per maximal invalid subsequence. -/
def utf8Decode (bs : List Nat) : Str := utf8DecodeAux bs.length bs

/-- `_ALWAYS_SAFE`: letters, digits, and `_.-~`. -/
def isAlwaysSafe (c : Char) : Bool :=
  isAsciiAlnum c || c = '_' || c = '.' || c = '-' || c = '~'

def pctEncode (bs : List Nat) : Str :=
  bs.flatMap (fun b => ['%', hexDigitUpper (b / 16), hexDigitUpper (b % 16)])

/-- One character under `quote_plus(·, safe='')`. -/
def quotePlusChar (c : Char) : Str :=
  if c = ' ' then ['+']
  else if isAlwaysSafe c then [c]
  else pctEncode (utf8Encode c)

/-- `quote_plus(s, safe='')` (as used by `urlencode`). -/
def quote_plus (s : Str) : Str := s.flatMap quotePlusChar

/-- Maximal run of `%HH` triplets at the head of `s`, as the byte values
plus the remainder. -/
def percentRun : Str → List Nat × Str
  | '%' :: h1 :: h2 :: rest =>
    if isHexDigit h1 ∧ isHexDigit h2 then
      let br := percentRun rest
      ((hexVal h1 * 16 + hexVal h2) :: br.1, br.2)
    else ([], '%' :: h1 :: h2 :: rest)
  | s => ([], s)

/-- Scanner for `unquote`: literal characters pass through; each maximal
`%HH` run is UTF-8-decoded with replacement.  `s.length` fuel suffices. -/
def unquoteAux : Nat → Str → Str
  | 0, _ => []
  | fuel+1, s =>
    match s with
    | [] => []
    | c :: rest =>
      let pr := percentRun s
      if pr.1 = [] then c :: unquoteAux fuel rest
      else utf8Decode pr.1 ++ unquoteAux fuel pr.2

/-- `unquote(s)` (encoding utf-8, errors replace). -/
def unquote (s : Str) : Str := unquoteAux s.length s

/-- The `.replace('+', ' ')` done by `parse_qsl` before unquoting. -/
def plusToSpace (s : Str) : Str :=
  s.map (fun c => if c = '+' then ' ' else c)

def unquote_plus (s : Str) : Str := unquote (plusToSpace s)

/-- `parse_qsl(qs, keep_blank_values=True)` (separator `&`). -/
def parse_qsl_kbv (qs : Str) : List (Str × Str) :=
  if qs = [] then []
  else (qs.splitOn '&').filterMap (fun nv =>
    if nv = [] then none
    else if '=' ∈ nv then
      let p := splitFirst '=' nv
      some (unquote_plus p.1, unquote_plus p.2)
    else some (unquote_plus nv, []))

/-- `urlencode(q)` (default `doseq=False`, `quote_via=quote_plus`). -/
def urlencode (q : List (Str × Str)) : Str :=
  joinWith ['&'] (q.map (fun kv => quote_plus kv.1 ++ '=' :: quote_plus kv.2))

end UrlPy

namespace JalurUtils

open Py UrlPy

/-!  `jalur_pendaftaran-scraper/utils.py`. -/

/-- The tracking-parameter denylist of `normalize_url`. -/
def TRACKING : List Str :=
  (["utm_source", "utm_medium", "utm_campaign", "utm_term", "utm_content",
    "fbclid", "gclid"]).map String.data

/-- `normalize_url` (utils.py lines 7–16); `Except.error` models the
uncaught `ValueError` that `urlparse` can raise. -/
def normalize_url (url0 : Str) : Except Str Str :=
  let url := pyStrip url0
  if url = [] then Except.ok url
  else
    match urlparseE url with
    | Except.error e => Except.error e
    | Except.ok p =>
      let q := (parse_qsl_kbv p.query).filter
        (fun kv => pyLower kv.1 ∉ TRACKING)
      Except.ok (urlunparse p.scheme p.netloc p.path p.params (urlencode q)
        [])

/-- `same_site(url, base)` (utils.py lines 18–28): equal lowercased
authorities, or `url`'s authority ends with `"." + base`'s; any parse error
returns `False` via the `try/except`. -/
def same_site (url base : Str) : Bool :=
  match urlsplitE url, urlsplitE base with
  | Except.ok u, Except.ok b =>
    let uh := pyLower u.netloc
    let bh := pyLower b.netloc
    if uh = [] || bh = [] then false
    else uh = bh || endsWith ('.' :: bh) uh
  | _, _ => false

end JalurUtils

namespace InfoUtils

open Py UrlPy

/-!  `informasi-scraper/app/utils.py`. -/

/-- Python `str.replace(pat, rep)` for nonempty `pat`: left-to-right,
non-overlapping; `s.length` fuel suffices. -/
def replaceAllAux (pat rep : Str) : Nat → Str → Str
  | 0, _ => []
  | _+1, [] => []
  | fuel+1, c :: rest =>
    if startsWith pat (c :: rest) then
      rep ++ replaceAllAux pat rep fuel ((c :: rest).drop pat.length)
    else c :: replaceAllAux pat rep fuel rest

def replaceAll (pat rep s : Str) : Str := replaceAllAux pat rep s.length s

/-- `netloc.split(":")[0]` — strip the port. -/
def portStrip (s : Str) : Str := s.takeWhile (· ≠ ':')

/-- `normalize_url` (app/utils.py lines 33–44): strip, then
`urldefrag` — which, when a `#` is present, reassembles the URL through
`urlparse`/`urlunparse` (and can therefore raise `ValueError`), and
otherwise returns the stripped string unchanged.  No query filtering. -/
def normalize_url (u : Str) : Except Str Str :=
  if u = [] then Except.ok []
  else
    let s := pyStrip u
    if '#' ∈ s then
      match urlparseE s with
      | Except.error e => Except.error e
      | Except.ok p =>
        Except.ok (urlunparse p.scheme p.netloc p.path p.params p.query [])
    else Except.ok s

/-- `same_site(seed, u)` (app/utils.py lines 47–70): subdomain-tolerant
comparison via `str.endswith` on the port-stripped, lowercased hosts,
retried after replacing every occurrence of `"www."`. -/
def same_site (seed u : Str) : Bool :=
  match urlsplitE seed, urlsplitE u with
  | Except.ok a, Except.ok b =>
    if a.netloc = [] || b.netloc = [] then false
    else
      let an := pyLower (portStrip a.netloc)
      let bn := pyLower (portStrip b.netloc)
      if endsWith an bn || endsWith bn an then true
      else
        let an2 := replaceAll "www.".data [] an
        let bn2 := replaceAll "www.".data [] bn
        endsWith an2 bn2 || endsWith bn2 an2
  | _, _ => false

end InfoUtils

namespace Crawler

open Py JalurUtils

/-!  `jalur_pendaftaran-scraper/crawler.py` (with `config.py` keywords).

The fetcher is abstracted as a deterministic environment
`F : Str → FetchOut` giving, per URL, the fetch success flag, the final
URL, the menu links (`fetch_with_menu`), and the already-extracted link
tuples (`extract_links_and_assets` applied to the decoded body — HTML
parsing itself stays outside the model).  The loop is driven by explicit
fuel: every theorem below holds for every fuel value, and concrete runs
use a fuel large enough to reach the loop's natural exit. -/

def ADMISSION_ENTRY_KEYWORDS : List Str :=
  (["pmb", "ppmb", "admission", "penerimaan",
    "pendaftaran mahasiswa baru"]).map String.data

def HARD_REJECT_KEYWORDS : List Str :=
  (["daya-tampung", "kuota", "kapasitas", "program-studi", "prodi",
    "fakultas", "mbkm", "rpl", "alumni", "berita", "news", "artikel",
    "biaya", "fee", "ukt", "beasiswa", "scholarship", "kontak", "contact",
    "lokasi", "location", "peta-situs", "bayar"]).map String.data

def MAX_ADMISSION_DEPTH : Nat := 3

def is_admission_entry (url : Str) : Bool :=
  ADMISSION_ENTRY_KEYWORDS.any (fun k => inStr k (pyLower url))

def hard_reject (url : Str) : Bool :=
  HARD_REJECT_KEYWORDS.any (fun k => inStr k (pyLower url))

/-- `_priority` (crawler.py lines 67–75). -/
def _priority (url : Str) : Int :=
  let u := pyLower url
  if inStr "jadwal".data u || inStr "timeline".data u then 100
  else if (["snbp", "snbt", "mandiri"].map String.data).any
      (fun k => inStr k u) then 80
  else if is_admission_entry u then 60
  else 10

/-- Python `\w` (ASCII data). -/
def isWordChar (c : Char) : Bool := isAsciiAlnum c || c = '_'

/-- The plain-word alternatives of `JALUR_WORD_RE` once `re.VERBOSE` has
stripped the pattern's whitespace (so `jadwal seleksi` is the single word
`jadwalseleksi`, and the missing `|` after `tahapan seleksi` glues it to
`mahasiswa\s*baru`). -/
def litAlts : List Str :=
  (["rpl", "jadwalseleksi", "pmb", "spmb", "snbp", "snbt", "snmptn",
    "sbmptn", "mandiri", "prestasi", "afirmasi", "kerjasama", "reguler",
    "internasional"]).map String.data

/-- Length of a `w1 \s* (w2 alternative)` match at the head of `s`; `\s*`
is greedy and deterministic here because no alternative starts with
whitespace. -/
def spacedAlt (w1 : Str) (w2s : List Str) (s : Str) : Option Nat :=
  if startsWithCI w1 s then
    let sp := (s.drop w1.length).takeWhile isPySpace
    let rest := s.drop (w1.length + sp.length)
    match w2s.find? (fun w => startsWithCI w rest) with
    | some w => some (w1.length + sp.length + w.length)
    | none => none
  else none

/-- Candidate match lengths of the `JALUR_WORD_RE` group at the head of
`s`. -/
def altLens (s : Str) : List Nat :=
  (spacedAlt "jalur".data
    (["pendaftaran", "seleksi", "masuk"].map String.data) s).toList ++
  (spacedAlt "penerimaan".data (["mahasiswa"].map String.data) s).toList ++
  (spacedAlt "tahapanseleksimahasiswa".data
    (["baru"].map String.data) s).toList ++
  litAlts.filterMap
    (fun w => if startsWithCI w s then some w.length else none)

/-- The trailing `\b`: the character after the match must not be a word
character. -/
def boundaryAfter (s : Str) (n : Nat) : Bool :=
  ((s.drop n).take 1).all (fun c => !isWordChar c)

/-- A group match (with both boundaries) at this position, given whether
the previous character was a word character. -/
def jalurAt (prevWord : Bool) (s : Str) : Bool :=
  !prevWord && (altLens s).any (boundaryAfter s)

def jalurSearchAux : Bool → Str → Bool
  | _, [] => false
  | prevWord, c :: rest =>
    jalurAt prevWord (c :: rest) || jalurSearchAux (isWordChar c) rest

/-- `bool(JALUR_WORD_RE.search(s))`. -/
def jalurWordSearch (s : Str) : Bool := jalurSearchAux false s

/-- One link tuple `(url, kind, hint, score)` as produced by
`extract_links_and_assets`.  The score is carried opaquely (the crawler
never computes with it), so `Int` stands in for the Python float. -/
structure FoundLink where
  url : Str
  kind : Str
  hint : Str
  score : Int
deriving DecidableEq

/-- The environment's answer to one `fetch_with_menu` call. -/
structure FetchOut where
  ok : Bool
  finalUrl : Str
  menuLinks : List Str
  found : List FoundLink

/-- `utils.CandidateLink`. -/
structure CandidateLink where
  campus_name : Str
  official_website : Str
  url : Str
  kind : Str
  source_page : Str
  context_hint : Str
  score : Int
deriving DecidableEq

/-- The crawl loop state, with the fetched-URL trace kept as a ghost
observable. -/
structure CrawlState where
  q : List (Str × Nat)
  visited : List Str
  candidates : List CandidateLink
  trace : List Str
deriving DecidableEq

/-- STEP 3 of `crawl_site`: analyse the extracted links of one fetched
page, producing new candidates and queue entries (`normalize_url` may
raise). -/
def processLinks (campus official start frFinal : Str) (depth : Nat)
    (visited : List Str) :
    List FoundLink → Except Str (List CandidateLink × List (Str × Nat))
  | [] => Except.ok ([], [])
  | f :: rest =>
    match normalize_url f.url with
    | Except.error e => Except.error e
    | Except.ok u =>
      match processLinks campus official start frFinal depth visited rest
        with
      | Except.error e => Except.error e
      | Except.ok tl =>
        if ¬ same_site u start = true then Except.ok tl
        else if hard_reject u then Except.ok tl
        else
          let text_blob := pyLower (u ++ ' ' :: f.hint)
          let isCand := inStr "jadwal".data text_blob
            || jalurWordSearch text_blob
          let cands : List CandidateLink :=
            if isCand then
              [⟨campus, official, u, f.kind, frFinal, f.hint.take 300,
                f.score⟩]
            else []
          let enq : List (Str × Nat) :=
            if f.kind = "html".data ∧ u ∉ visited then [(u, depth + 1)]
            else []
          Except.ok (cands ++ tl.1, enq ++ tl.2)

/-- STEP 2 of `crawl_site`: the BFS loop over the FIFO deque. -/
def crawlLoop (F : Str → FetchOut) (campus official start : Str)
    (maxPages : Nat) : Nat → CrawlState → Except Str CrawlState
  | 0, st => Except.ok st
  | fuel+1, st =>
    if st.q = [] ∨ ¬ st.visited.length < maxPages then Except.ok st
    else
      match st.q with
      | [] => Except.ok st
      | (url, depth) :: qrest =>
        if url ∈ st.visited then
          crawlLoop F campus official start maxPages fuel { st with q := qrest }
        else if MAX_ADMISSION_DEPTH < depth then
          crawlLoop F campus official start maxPages fuel { st with q := qrest }
        else if ¬ same_site url start = true then
          crawlLoop F campus official start maxPages fuel { st with q := qrest }
        else if hard_reject url then
          crawlLoop F campus official start maxPages fuel { st with q := qrest }
        else
          let fr := F url
          let st1 : CrawlState :=
            { q := qrest, visited := st.visited ++ [url],
              candidates := st.candidates, trace := st.trace ++ [url] }
          if ¬ fr.ok = true then
            crawlLoop F campus official start maxPages fuel st1
          else
            match processLinks campus official start fr.finalUrl depth
              st1.visited fr.found with
            | Except.error e => Except.error e
            | Except.ok (cands, enq) =>
              let st2 : CrawlState :=
                { q := st1.q ++ enq, visited := st1.visited,
                  candidates := st1.candidates ++ cands,
                  trace := st1.trace }
              crawlLoop F campus official start maxPages fuel st2

/-- STEP 4 of `crawl_site`: non-destructive dedup keyed by
`(url, kind, context_hint[:80])`, keeping first occurrences in order. -/
def dedupKey (c : CandidateLink) : Str × Str × Str :=
  (c.url, c.kind, c.context_hint.take 80)

def dedupBestAux (seen : List (Str × Str × Str)) :
    List CandidateLink → List CandidateLink
  | [] => []
  | c :: rest =>
    if dedupKey c ∈ seen then dedupBestAux seen rest
    else c :: dedupBestAux (dedupKey c :: seen) rest

def dedupBest (cs : List CandidateLink) : List CandidateLink :=
  dedupBestAux [] cs

/-- The full-run result: the returned candidates, plus the full fetch
trace (entry fetch first) and the loop's visited list as ghost
observables. -/
structure CrawlResult where
  best : List CandidateLink
  trace : List Str
  visited : List Str
deriving DecidableEq

/-- `crawl_site` (crawler.py lines 82–186). -/
def crawl_site (F : Str → FetchOut) (campus official : Str)
    (maxPages fuel : Nat) : Except Str CrawlResult :=
  match normalize_url official with
  | Except.error e => Except.error e
  | Except.ok start =>
    let entry := F start
    let rootsE := (entry.menuLinks.filter
      (fun u => same_site u start && is_admission_entry u)).mapM
      normalize_url
    match rootsE with
    | Except.error e => Except.error e
    | Except.ok roots =>
      if roots = [] then Except.ok ⟨[], [start], []⟩
      else
        match crawlLoop F campus official start maxPages fuel
          ⟨(roots.take 3).map (fun u => (u, 0)), [], [], []⟩ with
        | Except.error e => Except.error e
        | Except.ok st =>
          Except.ok ⟨dedupBest st.candidates, start :: st.trace, st.visited⟩

end Crawler

namespace Fetch

open Py

/-!  Blocked-page classification: `informasi-scraper/app/fetcher.py`
(success path of `PlaywrightFetcher.fetch`, lines 196–203) and
`informasi-scraper/app/run_all.py` (`_looks_blocked`, `_fetch_with_retry`,
lines 34–59). -/

structure FetchResult where
  ok : Bool
  final_url : Str
  text : Str
  error : Str
  status : Nat
deriving DecidableEq

/-- The result assembly on the success path of `PlaywrightFetcher.fetch`:
`ok = bool(resp) and status < 400 and "just a moment" not in title`, and
`error = "blocked_cloudflare_like"` iff the title carries the challenge
marker or the text says "checking your browser". -/
def classify (respPresent : Bool) (status : Nat) (title text finalUrl :
    Str) : FetchResult :=
  let titleL := pyLower title
  let ok := respPresent && decide (status < 400)
    && !(inStr "just a moment".data titleL)
  let err :=
    if inStr "just a moment".data titleL
        || inStr "checking your browser".data (pyLower text) then
      "blocked_cloudflare_like".data
    else []
  ⟨ok, finalUrl, text, err, status⟩

/-- `_looks_blocked` (run_all.py lines 34–43). -/
def looks_blocked (r : FetchResult) : Bool :=
  let err := pyLower r.error
  if inStr "blocked_cloudflare_like".data err
      || inStr "cloudflare".data err
      || inStr "just a moment".data err then true
  else if !r.ok && decide ((pyStrip r.text).length < 80) then true
  else false

/-- `_fetch_with_retry` (run_all.py lines 46–59): `attempts t` is the
result of the `t`-th fetch call; returns the surfaced result (`none` only
when `tries = 0`, where Python returns its initial `last = None`) and the
number of fetch calls made. -/
def fetchRetryGo (attempts : Nat → FetchResult) (t : Nat) :
    Nat → Option FetchResult → Option FetchResult × Nat
  | 0, last => (last, t)
  | rem+1, _ =>
    let r := attempts t
    if r.ok = true ∧ pyStrip r.text ≠ [] then (some r, t + 1)
    else if looks_blocked r then fetchRetryGo attempts (t + 1) rem (some r)
    else (some r, t + 1)

def fetch_with_retry (attempts : Nat → FetchResult) (tries : Nat) :
    Option FetchResult × Nat :=
  fetchRetryGo attempts 0 tries none

end Fetch

namespace RunAll

open Py

/-!  The per-seed loop of `informasi-scraper/app/run_all.py` `main`
(lines 171–291).  A seed's whole `try:` block — crawling, the Oracle
calls, row assembly — is abstracted as `process : SeedRow → SeedOutcome ρ`:
`ok row` when the block completes with output row `row`, `error e` when it
raises an exception whose type name is `e`.  Checkpoint writes and
incremental snapshots are recorded as events, mirroring the source's
`json.dump` and `save_outputs` calls (and `[SKIP]`/`[START]` prints). -/

/-- `norm_url` (run_all.py lines 26–31): empty passes through; otherwise
strip, drop the fragment via `urldefrag` — which, when a `#` is present,
rebuilds the URL through `urlparse`/`urlunparse` and can therefore raise
`ValueError` — then strip trailing slashes.  The call sits outside the
per-seed `try:`, so the error propagates out of the loop. -/
def norm_url (u : Str) : Except Str Str :=
  if u = [] then Except.ok []
  else
    let s := pyStrip u
    let dE : Except Str Str :=
      if '#' ∈ s then
        match UrlPy.urlparseE s with
        | Except.error e => Except.error e
        | Except.ok p =>
          Except.ok (UrlPy.urlunparse p.scheme p.netloc p.path p.params
            p.query [])
      else Except.ok s
    match dE with
    | Except.error e => Except.error e
    | Except.ok d => Except.ok ((d.reverse.dropWhile (· = '/')).reverse)

structure SeedRow where
  idx : Nat
  name : Str
  website : Str
deriving DecidableEq

inductive SeedOutcome (ρ : Type) where
  | ok (row : ρ)
  | error (ename : Str)

def SeedOutcome.isOk {ρ : Type} : SeedOutcome ρ → Bool
  | .ok _ => true
  | .error _ => false

/-- `key = f"{i}:{website}"`, where `w` is the already-computed
`norm_url(raw)` result. -/
def seedKey (s : SeedRow) (w : Str) : Str :=
  (Nat.repr s.idx).data ++ ':' :: w

inductive Event (ρ : Type) where
  | skip (key : Str)
  | started (key : Str)
  | checkpoint (done : List (Str × Str))
  | snapshot (rows : List ρ)

def Event.isSnapshot {ρ : Type} : Event ρ → Bool
  | .snapshot _ => true
  | _ => false

def Event.isCheckpoint {ρ : Type} : Event ρ → Bool
  | .checkpoint _ => true
  | _ => false

def Event.isStarted {ρ : Type} : Event ρ → Bool
  | .started _ => true
  | _ => false

/-- The key carried by a `started` event (ghost observable for "this seed
was processed"). -/
def startedKey {ρ : Type} : Event ρ → Option Str
  | .started k => some k
  | _ => none

/-- The rows one seed's outcome contributes to the accumulator. -/
def rowsOf {ρ : Type} : SeedOutcome ρ → List ρ
  | .ok r => [r]
  | .error _ => []

/-- `state["done"][key] = v` (dict update: replace in place or append). -/
def setDone : List (Str × Str) → Str → Str → List (Str × Str)
  | [], k, v => [(k, v)]
  | (k', v') :: rest, k, v =>
    if k' = k then (k', v) :: rest else (k', v') :: setDone rest k v

/-- `state["done"].get(key)`. -/
def getDone (done : List (Str × Str)) (k : Str) : Option Str :=
  (done.find? (fun kv => kv.1 = k)).map (fun kv => kv.2)

structure OrchState (ρ : Type) where
  done : List (Str × Str)
  rows : List ρ
  events : List (Event ρ)

/-- The body of `main`'s `for i, r in inp.iterrows()` loop.  The
`website = norm_url(website_raw)` call happens before the `try:` block,
so a `ValueError` there aborts the whole run (`Except.error`). -/
def runSeeds {ρ : Type} (process : SeedRow → SeedOutcome ρ) :
    List SeedRow → OrchState ρ → Except Str (OrchState ρ)
  | [], st => Except.ok st
  | s :: rest, st =>
    match norm_url s.website with
    | Except.error e => Except.error e
    | Except.ok w =>
    let key := seedKey s w
    if getDone st.done key = some "ok".data then
      runSeeds process rest
        { st with events := st.events ++ [Event.skip key] }
    else
      match process s with
      | .ok row =>
        let rows2 := st.rows ++ [row]
        let done2 := setDone st.done key "ok".data
        runSeeds process rest
          { done := done2, rows := rows2,
            events := st.events ++ [Event.started key,
              Event.checkpoint done2, Event.snapshot rows2] }
      | .error e =>
        let done2 := setDone st.done key ("error:".data ++ e)
        let evs := if st.rows.isEmpty then [] else [Event.snapshot st.rows]
        runSeeds process rest
          { done := done2, rows := st.rows,
            events := st.events ++ Event.started key ::
              Event.checkpoint done2 :: evs }

/-- A fresh run against an existing checkpoint store: `rows` and the
in-memory accumulator start empty, the `done` map is read from disk. -/
def freshRun {ρ : Type} (process : SeedRow → SeedOutcome ρ)
    (seeds : List SeedRow) (done0 : List (Str × Str)) :
    Except Str (OrchState ρ) :=
  runSeeds process seeds ⟨done0, [], []⟩

end RunAll

/-!  # Theorems

First the generic helper lemmas about the Python string primitives, then
the per-claim developments. -/

namespace Py

theorem inStr_iff {p h : Str} : inStr p h = true ↔ p <:+: h := by
  simp [inStr]

theorem pyStrip_insub (s : Str) : pyStrip s <:+: s := by
  have h1 : s.dropWhile isPySpace <:+ s := List.dropWhile_suffix _
  have h2 : (s.dropWhile isPySpace).reverse.dropWhile isPySpace <:+
      (s.dropWhile isPySpace).reverse := List.dropWhile_suffix _
  have h3 := List.reverse_prefix.mpr h2
  rw [List.reverse_reverse] at h3
  exact List.IsInfix.trans h3.isInfix h1.isInfix

theorem pyLower_insub {a b : Str} (h : a <:+: b) :
    pyLower a <:+: pyLower b := by
  obtain ⟨s, t, rfl⟩ := h
  exact ⟨s.map lowerChar, t.map lowerChar, by simp [pyLower]⟩

theorem filter_insub (p : Char → Bool) {a b : Str} (h : a <:+: b) :
    a.filter p <:+: b.filter p := by
  obtain ⟨s, t, rfl⟩ := h
  exact ⟨s.filter p, t.filter p, by simp⟩

theorem joinWith_insub {sep : Str} {xs : List Str} {u : Str} (h : u ∈ xs) :
    u <:+: joinWith sep xs := by
  induction xs with
  | nil => cases h
  | cons x rest ih =>
    cases h with
    | head =>
      cases rest with
      | nil => exact List.infix_refl _
      | cons y t =>
        show u <:+: u ++ sep ++ joinWith sep (y :: t)
        exact ⟨[], sep ++ joinWith sep (y :: t), by simp⟩
    | tail _ hm =>
      cases rest with
      | nil => cases hm
      | cons y t =>
        obtain ⟨a, b, hab⟩ := ih hm
        show u <:+: x ++ sep ++ joinWith sep (y :: t)
        exact ⟨x ++ sep ++ a, b, by rw [← hab]; simp⟩

theorem dropWhile_eq_self_of {p : Char → Bool} {s : Str}
    (h : ∀ c ∈ s, p c = false) : s.dropWhile p = s := by
  cases s with
  | nil => rfl
  | cons a t => simp [List.dropWhile_cons, h a (by simp)]

theorem pyStrip_eq_self {s : Str} (h : ∀ c ∈ s, isPySpace c = false) :
    pyStrip s = s := by
  unfold pyStrip
  rw [dropWhile_eq_self_of h, dropWhile_eq_self_of
    (fun c hc => h c (List.mem_reverse.mp hc)), List.reverse_reverse]

theorem pyLower_eq_self {s : Str} (h : ∀ c ∈ s, lowerChar c = c) :
    pyLower s = s := by
  induction s with
  | nil => rfl
  | cons a t ih =>
    have ht : List.map lowerChar t = t := ih (fun c hc => h c (by simp [hc]))
    simp only [pyLower, List.map_cons] at *
    rw [h a (by simp), ht]

theorem charLe_toNat {a b : Char} (h : a ≤ b) : a.val.toNat ≤ b.val.toNat :=
  h

theorem isPySpace_enum {c : Char} (h : isPySpace c = true) :
    c = ' ' ∨ c = '\t' ∨ c = '\n' ∨ c = '\x0d' ∨ c = '\x0b' ∨ c = '\x0c' := by
  simp only [isPySpace, Bool.or_eq_true, decide_eq_true_eq] at h
  tauto

theorem digit_not_space {c : Char} (h : isPyDigit c = true) :
    isPySpace c = false := by
  cases hs : isPySpace c with
  | false => rfl
  | true =>
    rcases isPySpace_enum hs with rfl | rfl | rfl | rfl | rfl | rfl <;>
      exact absurd h (by decide)

theorem digit_lowerChar {c : Char} (h : isPyDigit c = true) :
    lowerChar c = c := by
  simp only [isPyDigit, Bool.and_eq_true, decide_eq_true_eq] at h
  have a1 := charLe_toNat h.1
  have a2 := charLe_toNat h.2
  simp only [lowerChar]
  rw [if_neg]
  simp only [isAsciiUpper, Bool.and_eq_true, decide_eq_true_eq, not_and]
  intro hc
  have a3 := charLe_toNat hc
  have e1 : ('0' : Char).val.toNat = 48 := by decide
  have e2 : ('9' : Char).val.toNat = 57 := by decide
  have e3 : ('A' : Char).val.toNat = 65 := by decide
  omega

theorem prefix_append_left (w : Str) {x y : Str} (h : x <+: y) :
    w ++ x <+: w ++ y := by
  obtain ⟨t, rfl⟩ := h
  exact ⟨t, by simp⟩

theorem eq_take_of_pref {x y : Str} (h : x <+: y) :
    y.take x.length = x := (List.prefix_iff_eq_take.mp h).symm

theorem drop_of_takeWhile (p : Char → Bool) (s : Str) :
    s = s.takeWhile p ++ s.drop (s.takeWhile p).length := by
  conv_lhs => rw [← List.take_append_drop (s.takeWhile p).length s]
  rw [eq_take_of_pref (List.takeWhile_prefix p)]

end Py

namespace Extractors

open Py

theorem local_not_space {c : Char} (h : isLocalChar c = true) :
    isPySpace c = false := by
  cases hs : isPySpace c with
  | false => rfl
  | true =>
    rcases isPySpace_enum hs with rfl | rfl | rfl | rfl | rfl | rfl <;>
      exact absurd h (by decide)

theorem domain_not_space {c : Char} (h : isDomainChar c = true) :
    isPySpace c = false := by
  cases hs : isPySpace c with
  | false => rfl
  | true =>
    rcases isPySpace_enum hs with rfl | rfl | rfl | rfl | rfl | rfl <;>
      exact absurd h (by decide)

theorem alpha_not_space {c : Char} (h : isAsciiAlpha c = true) :
    isPySpace c = false := by
  cases hs : isPySpace c with
  | false => rfl
  | true =>
    rcases isPySpace_enum hs with rfl | rfl | rfl | rfl | rfl | rfl <;>
      exact absurd h (by decide)

theorem find?_cons_eq {α : Type} (p : α → Bool) (a : α) (l : List α) :
    (a :: l).find? p = if p a then some a else l.find? p := by
  simp only [List.find?]
  cases p a <;> simp

theorem findRev_succ (p : Nat → Bool) (n : Nat) :
    (List.range (n+1)).reverse.find? p =
      if p n then some n else (List.range n).reverse.find? p := by
  rw [List.range_succ, List.reverse_append]
  simp only [List.reverse_cons, List.reverse_nil, List.nil_append,
    List.cons_append, List.singleton_append]
  exact find?_cons_eq p n _

theorem findRev_eq_some {p : Nat → Bool} {n k : Nat} (hk : k < n)
    (hp : p k = true) (hgt : ∀ j, k < j → j < n → p j = false) :
    (List.range n).reverse.find? p = some k := by
  induction n with
  | zero => omega
  | succ m ih =>
    rw [findRev_succ]
    by_cases hm : k = m
    · subst hm
      simp [hp]
    · have hpm : p m = false := hgt m (by omega) (by omega)
      rw [hpm]
      simp only [Bool.false_eq_true, if_false]
      exact ih (by omega) (fun j h1 h2 => hgt j h1 (by omega))

/-- The anatomy of a successful `emailMatchAt`. -/
theorem emailMatchAt_some {s r : Str} (h : emailMatchAt s = some r) :
    ∃ rest k,
      s = s.takeWhile isLocalChar ++ '@' :: rest ∧
      s.takeWhile isLocalChar ≠ [] ∧
      dotOk (rest.takeWhile isDomainChar) k = true ∧
      k < (rest.takeWhile isDomainChar).length ∧
      r = s.takeWhile isLocalChar ++ '@' ::
        ((rest.takeWhile isDomainChar).take k ++ '.' ::
          alphaTail (rest.takeWhile isDomainChar) k) := by
  unfold emailMatchAt at h
  dsimp only at h
  split at h
  · exact absurd h (by simp)
  next hl =>
    split at h
    next rest heq =>
      unfold bestDot at h
      split at h
      next k hk =>
        refine ⟨rest, k, ?_, ?_, ?_, ?_, ?_⟩
        · conv_lhs => rw [drop_of_takeWhile isLocalChar s]
          rw [heq]
        · simpa [List.isEmpty_iff] using hl
        · exact List.find?_some hk
        · have := List.mem_of_find?_eq_some hk
          rw [List.mem_reverse, List.mem_range] at this
          exact this
        · exact (Option.some_inj.mp h).symm
      next => exact absurd h (by simp)
    next => exact absurd h (by simp)

theorem dotOk_decomp {d : Str} {k : Nat} (h : dotOk d k = true) :
    1 ≤ k ∧ d.drop k = '.' :: d.drop (k+1) ∧
      2 ≤ (alphaTail d k).length := by
  simp only [dotOk, Bool.and_eq_true, decide_eq_true_eq] at h
  obtain ⟨⟨h1, h2⟩, h3⟩ := h
  refine ⟨h1, ?_, h3⟩
  cases hd : d.drop k with
  | nil => rw [hd] at h2; exact absurd h2 (by simp)
  | cons a t =>
    rw [hd] at h2
    have ha : a = '.' := by
      simpa using congrArg (fun l => l.headD ' ') h2
    subst ha
    have ht : t = d.drop (k+1) := by
      have hdd : (d.drop k).drop 1 = d.drop (k+1) := by
        rw [List.drop_drop]
      rw [hd] at hdd
      simpa using hdd
    rw [ht]

end Extractors

namespace Extractors

open Py

theorem chunk_prefix_d {d : Str} {k : Nat} (h : dotOk d k = true) :
    d.take k ++ '.' :: alphaTail d k <+: d := by
  obtain ⟨-, hdk, -⟩ := dotOk_decomp h
  have htw : alphaTail d k <+: d.drop (k+1) := List.takeWhile_prefix _
  have h1 := prefix_append_left ['.'] htw
  simp only [List.singleton_append] at h1
  rw [← hdk] at h1
  have h2 := prefix_append_left (d.take k) h1
  rwa [List.take_append_drop] at h2

theorem emailMatchAt_pref {s r : Str} (h : emailMatchAt s = some r) :
    r <+: s := by
  obtain ⟨rest, k, hs, -, hdot, -, hr⟩ := emailMatchAt_some h
  have hd : rest.takeWhile isDomainChar <+: rest := List.takeWhile_prefix _
  have hchunk := (chunk_prefix_d hdot).trans hd
  have h1 := prefix_append_left ['@'] hchunk
  simp only [List.singleton_append] at h1
  have h2 := prefix_append_left (s.takeWhile isLocalChar) h1
  rw [hr]
  conv_rhs => rw [hs]
  exact h2

/-- A `searchWith` hit is the matcher's hit at the leftmost workable
position. -/
theorem searchWith_first {m : Str → Option Str} {s r : Str}
    (h : searchWith m s = some r) :
    ∃ i, m (s.drop i) = some r ∧ ∀ j, j < i → m (s.drop j) = none := by
  induction s with
  | nil =>
    rw [searchWith] at h
    exact ⟨0, h, fun j hj => absurd hj (by omega)⟩
  | cons c t ih =>
    rw [searchWith] at h
    cases hm : m (c :: t) with
    | some x =>
      rw [hm] at h
      cases h
      exact ⟨0, hm, fun j hj => absurd hj (by omega)⟩
    | none =>
      rw [hm] at h
      obtain ⟨i, hi, hlt⟩ := ih h
      refine ⟨i + 1, by simpa using hi, fun j hj => ?_⟩
      cases j with
      | zero => simpa using hm
      | succ j' => simpa using hlt j' (by omega)

/-- When the matcher only returns prefixes of its input, every
`searchWith` hit is an infix of the haystack. -/
theorem searchWith_insub {m : Str → Option Str}
    (hp : ∀ s r, m s = some r → r <+: s) {s r : Str}
    (h : searchWith m s = some r) : r <:+: s := by
  obtain ⟨i, hi, -⟩ := searchWith_first h
  exact ((hp _ _ hi).isInfix).trans (List.drop_suffix i s).isInfix

theorem emailSearch_insub {s r : Str} (h : emailSearch s = some r) :
    r <:+: s :=
  searchWith_insub (fun _ _ hm => emailMatchAt_pref hm) h

end Extractors

namespace Extractors

open Py

theorem takeWhile_append_stop {p : Char → Bool} {l z : Str} {c0 : Char}
    (h1 : ∀ c ∈ l, p c = true) (h2 : p c0 = false) :
    (l ++ c0 :: z).takeWhile p = l := by
  induction l with
  | nil => simp [List.takeWhile_cons, h2]
  | cons a t ih =>
    simp only [List.cons_append, List.takeWhile_cons, h1 a (by simp),
      if_true]
    rw [ih (fun c hc => h1 c (by simp [hc]))]

theorem emailFullmatch_of_parts {l d : Str} {k : Nat}
    (hl : l ≠ []) (hlc : ∀ c ∈ l, isLocalChar c = true)
    (hdc : ∀ c ∈ d, isDomainChar c = true)
    (hdot : dotOk d k = true) (hk : k < d.length) :
    emailFullmatch (l ++ '@' :: (d.take k ++ '.' :: alphaTail d k)) =
      true := by
  obtain ⟨h1, hdk, h2⟩ := dotOk_decomp hdot
  set a := alphaTail d k with ha
  set chunk : Str := d.take k ++ '.' :: a with hchunk
  have hlenk : (d.take k).length = k := by
    rw [List.length_take]
    omega
  have hchunklen : chunk.length = k + 1 + a.length := by
    rw [hchunk]
    simp only [List.length_append, List.length_cons, hlenk]
    omega
  have hdropk : chunk.drop k = '.' :: a := by
    have hstep := List.drop_left (d.take k) ('.' :: a)
    rw [hlenk] at hstep
    rw [hchunk]
    exact hstep
  have htakek : chunk.take k = d.take k := by
    have hstep := List.take_left (d.take k) ('.' :: a)
    rw [hlenk] at hstep
    rw [hchunk]
    exact hstep
  have hchunk2 : chunk = (d.take k ++ ['.']) ++ a := by
    rw [hchunk]
    simp
  have hl2 : (d.take k ++ ['.']).length = k + 1 := by simp [hlenk]
  have hdropk1 : chunk.drop (k+1) = a := by
    have hstep := List.drop_left (d.take k ++ ['.']) a
    rw [hl2] at hstep
    rw [hchunk2]
    exact hstep
  have hfind : (List.range chunk.length).reverse.find?
      (fun q => decide ((chunk.drop q).take 1 = ['.'])) = some k := by
    apply findRev_eq_some (by omega)
    · rw [hdropk]
      simp
    · intro j hj1 hj2
      have hdropj : chunk.drop j = a.drop (j - (k+1)) := by
        rw [hchunk2, List.drop_append_eq_append_drop,
          List.drop_eq_nil_of_le (by omega), List.nil_append, hl2]
      rw [hdropj]
      cases hcase : a.drop (j - (k+1)) with
      | nil => simp
      | cons b bt =>
        simp only [List.take_cons, List.take_zero, decide_eq_true_eq,
          decide_eq_false_iff_not]
        intro hbe
        have hb : b = '.' := by
          simpa using congrArg (fun x => x.headD ' ') hbe
        have hmem : b ∈ a := by
          have hbm : b ∈ a.drop (j - (k+1)) := by rw [hcase]; simp
          exact List.mem_of_mem_drop hbm
        have hba := List.mem_takeWhile_imp (ha ▸ hmem)
        rw [hb] at hba
        exact absurd hba (by decide)
  have hstepA : (l ++ '@' :: chunk).takeWhile isLocalChar = l :=
    takeWhile_append_stop hlc (by decide)
  have hstepC : (l ++ '@' :: chunk).drop l.length = '@' :: chunk := by
    have hstep := List.drop_left l ('@' :: chunk)
    exact hstep
  have hball1 : (chunk.take k).all isDomainChar = true := by
    rw [htakek, List.all_eq_true]
    intro c hc
    exact hdc c (List.mem_of_mem_take hc)
  have hball2 : (chunk.drop (k+1)).all isAsciiAlpha = true := by
    rw [hdropk1, List.all_eq_true]
    intro c hc
    exact List.mem_takeWhile_imp (ha ▸ hc)
  unfold emailFullmatch
  dsimp only
  rw [hstepA, hstepC]
  rw [if_neg (by simpa [List.isEmpty_iff] using hl)]
  split
  next rest heq =>
    obtain rfl : chunk = rest := by injection heq
    rw [hfind]
    simp only [hball1, hball2, Bool.and_eq_true, decide_eq_true_eq,
      Bool.and_true, Bool.true_and]
    constructor
    · exact h1
    · omega
  next hne =>
    exact absurd rfl (hne chunk)

theorem emailMatchAt_full {s r : Str} (h : emailMatchAt s = some r) :
    emailFullmatch r = true := by
  obtain ⟨rest, k, hs, hl, hdot, hk, hr⟩ := emailMatchAt_some h
  rw [hr]
  exact emailFullmatch_of_parts hl
    (fun c hc => List.mem_takeWhile_imp hc)
    (fun c hc => List.mem_takeWhile_imp hc) hdot hk

theorem emailMatchAt_nonspace {s r : Str} (h : emailMatchAt s = some r) :
    ∀ c ∈ r, isPySpace c = false := by
  obtain ⟨rest, k, hs, hl, hdot, hk, hr⟩ := emailMatchAt_some h
  intro c hc
  rw [hr] at hc
  simp only [List.mem_append, List.mem_cons] at hc
  rcases hc with hc | hc | hc | hc | hc
  · exact local_not_space (List.mem_takeWhile_imp hc)
  · subst hc; decide
  · exact domain_not_space (List.mem_takeWhile_imp
      (List.mem_of_mem_take hc))
  · subst hc; decide
  · exact alpha_not_space (List.mem_takeWhile_imp hc)

end Extractors

namespace Extractors

open Py

theorem waMatchAt_pref {s r : Str} (h : waMatchAt s = some r) :
    r <+: s := by
  unfold waMatchAt at h
  split at h
  · cases h; exact List.take_prefix _ _
  · split at h
    · cases h; exact List.take_prefix _ _
    · split at h
      · cases h; exact List.take_prefix _ _
      · exact absurd h (by simp)

theorem waSearch_insub {s r : Str} (h : waSearch s = some r) :
    r <:+: s :=
  searchWith_insub (fun _ _ hm => waMatchAt_pref hm) h

theorem phoneCore_pref {s r : Str} (h : phoneCore s = some r) :
    r <+: s := by
  unfold phoneCore at h
  split at h
  next c rest =>
    dsimp only at h
    split at h
    · split at h
      · cases h; exact List.take_prefix _ _
      · exact absurd h (by simp)
    · exact absurd h (by simp)
  next => exact absurd h (by simp)

theorem phoneMatchAt_pref {s r : Str} (h : phoneMatchAt s = some r) :
    r <+: s := by
  rw [phoneMatchAt.eq_def] at h
  split at h
  next rest =>
    cases hc : phoneCore rest with
    | some x =>
      rw [hc] at h
      cases h
      obtain ⟨t, ht⟩ := phoneCore_pref hc
      exact ⟨t, by simp [← ht]⟩
    | none => rw [hc] at h; exact absurd h (by simp)
  next => exact phoneCore_pref h

theorem phoneFindAllAux_insub {fuel : Nat} {s : Str} {r : Str}
    (h : r ∈ phoneFindAllAux fuel s) : r <:+: s := by
  induction fuel generalizing s with
  | zero => cases h
  | succ f ih =>
    match s, h with
    | c :: t, h =>
      rw [phoneFindAllAux] at h
      cases hm : phoneMatchAt (c :: t) with
      | some x =>
        rw [hm] at h
        rcases List.mem_cons.mp h with rfl | hmem
        · exact (phoneMatchAt_pref hm).isInfix
        · have h2 := ih hmem
          have h3 : t.drop (x.length - 1) <:+ c :: t :=
            (List.drop_suffix _ t).trans (List.suffix_cons c t)
          exact h2.trans h3.isInfix
      | none =>
        rw [hm] at h
        exact (ih h).trans (List.infix_cons (List.infix_refl t))

theorem phoneFindAll_insub {s r : Str} (h : r ∈ phoneFindAll s) :
    r <:+: s := phoneFindAllAux_insub h

theorem pickPhone_spec {rs : List Str} (h : pickPhone rs ≠ ['-']) :
    ∃ r ∈ rs, pickPhone rs = sanitize_phone r := by
  induction rs with
  | nil => exact absurd rfl h
  | cons x rest ih =>
    rw [pickPhone] at h ⊢
    split
    next hcand => exact ⟨x, by simp, rfl⟩
    next hcand =>
      rw [if_neg hcand] at h
      obtain ⟨r, hr, he⟩ := ih h
      exact ⟨r, by simp [hr], he⟩

theorem digits_only_all {s : Str} : ∀ c ∈ digits_only s,
    isPyDigit c = true := by
  intro c hc
  exact (List.mem_filter.mp hc).2

theorem pyStrip_digits_only (s : Str) :
    pyStrip (digits_only s) = digits_only s :=
  pyStrip_eq_self (fun c hc => digit_not_space (digits_only_all c hc))

theorem pyLower_digits_only (s : Str) :
    pyLower (digits_only s) = digits_only s :=
  pyLower_eq_self (fun c hc => digit_lowerChar (digits_only_all c hc))

/-- A surviving `_sanitize_phone` keeps exactly the digits of its input. -/
theorem sanitize_phone_digits {r : Str} (h : sanitize_phone r ≠ ['-']) :
    digits_only (sanitize_phone r) <:+: digits_only r := by
  unfold sanitize_phone at h ⊢
  dsimp only at h ⊢
  split at h
  next hlen =>
    rw [if_pos hlen]
    unfold clean_phone digits_only
    rw [List.filter_filter]
    have hsub : (pyStrip r).filter
        (fun c => isPyDigit c && (isPyDigit c || c = '+')) =
        (pyStrip r).filter isPyDigit := by
      apply List.filter_congr
      intro c _
      cases hd : isPyDigit c <;> simp [hd]
    rw [hsub]
    exact filter_insub isPyDigit (pyStrip_insub r)
  next => exact absurd rfl h

theorem in_blob_true {v blob : Str} (h : in_blob v blob = true) :
    pyLower (pyStrip v) <:+: pyLower blob := by
  unfold in_blob at h
  split at h
  · exact absurd h (by simp)
  · exact inStr_iff.mp h

theorem any_domain_in_links_mem {domains links : List Str}
    (h : any_domain_in_links domains links ≠ []) :
    any_domain_in_links domains links ∈ links := by
  induction links with
  | nil => exact absurd rfl h
  | cons u rest ih =>
    rw [any_domain_in_links] at h ⊢
    by_cases hcond : (domains.any (fun d => inStr d (pyLower u))) = true
    · rw [if_pos hcond]
      exact List.mem_cons_self u rest
    · rw [if_neg hcond] at h ⊢
      exact List.mem_cons_of_mem u (ih h)

theorem link_infix_blob {text : Str} {links : List Str} {u : Str}
    (h : u ∈ links) : u <:+: mkBlob text links := by
  have h1 : u <:+: joinWith ['\n'] links := joinWith_insub h
  obtain ⟨a, b, hab⟩ := h1
  exact ⟨text ++ '\n' :: a, b, by rw [mkBlob, ← hab]; simp⟩

theorem finalTrim_cases (v : Str) :
    finalTrim v = ['-'] ∨ finalTrim v = pyStrip v := by
  unfold finalTrim
  split
  · exact Or.inl rfl
  · exact Or.inr rfl

end Extractors

namespace Extractors

open Py

theorem emailField_cases (blob proposed : Str) :
    emailField blob proposed = ['-'] ∨
    (∃ r, emailSearch blob = some r ∧ emailField blob proposed = r) ∨
    (in_blob (sanitize_email proposed) blob = true ∧
      emailField blob proposed = sanitize_email proposed) := by
  unfold emailField
  dsimp only
  split
  next hcond =>
    cases hs : emailSearch blob with
    | some r => exact Or.inr (Or.inl ⟨r, rfl, rfl⟩)
    | none => exact Or.inl rfl
  next hcond =>
    by_cases hsan : sanitize_email proposed = ['-']
    · exact Or.inl hsan
    · have hib : in_blob (sanitize_email proposed) blob = true := by
        by_contra hib
        exact hcond ⟨hsan, by simpa using hib⟩
      exact Or.inr (Or.inr ⟨hib, rfl⟩)

theorem waField_cases (blob proposed : Str) :
    waField blob proposed = ['-'] ∨
    (∃ r, waSearch blob = some r ∧ waField blob proposed = r) ∨
    (waField blob proposed = sanitize_whatsapp proposed ∧
      (inStr "whatsapp".data (pyLower blob)
        || inStr "wa ".data (pyLower blob)) = true) := by
  unfold waField
  dsimp only
  split
  next hcond => exact Or.inl rfl
  next hcond =>
    cases hs : waSearch blob with
    | some r => exact Or.inr (Or.inl ⟨r, rfl, rfl⟩)
    | none =>
      by_cases hwa : sanitize_whatsapp proposed = ['-']
      · exact Or.inl hwa
      · have hevi : ((waSearch blob).isSome
            || inStr "whatsapp".data (pyLower blob)
            || inStr "wa ".data (pyLower blob)) = true := by
          by_contra hevi
          exact hcond ⟨hwa, by simpa using hevi⟩
        rw [hs] at hevi
        simp only [Option.isSome_none, Bool.false_or] at hevi
        exact Or.inr (Or.inr ⟨rfl, by simpa using hevi⟩)

theorem phoneField_cases (blob proposed : Str) :
    phoneField blob proposed = ['-'] ∨
    (∃ r ∈ phoneFindAll blob,
      phoneField blob proposed = sanitize_phone r ∧
        sanitize_phone r ≠ ['-']) ∨
    (phoneField blob proposed = sanitize_phone proposed ∧
      in_blob (digits_only (sanitize_phone proposed)) (digits_only blob) =
        true ∧ sanitize_phone proposed ≠ ['-']) := by
  unfold phoneField
  dsimp only
  split
  next hcond =>
    by_cases hpick : pickPhone (phoneFindAll blob) = ['-']
    · exact Or.inl hpick
    · obtain ⟨r, hr, he⟩ := pickPhone_spec hpick
      exact Or.inr (Or.inl ⟨r, hr, he, by rw [← he]; exact hpick⟩)
  next hcond =>
    by_cases hsan : sanitize_phone proposed = ['-']
    · exact Or.inl hsan
    · have hib : in_blob (digits_only (sanitize_phone proposed))
          (digits_only blob) = true := by
        by_contra hib
        exact hcond ⟨hsan, by simpa using hib⟩
      exact Or.inr (Or.inr ⟨rfl, hib, hsan⟩)

theorem socialField_cases (domains links : List Str) (blob v : Str) :
    socialField domains links blob v = ['-'] ∨
    socialField domains links blob v ∈ links ∨
    in_blob (socialField domains links blob v) blob = true := by
  unfold socialField
  dsimp only
  set v1 := sanitize_url v with hv1
  set v2 := (if v1 ≠ ['-'] ∧
      ¬(domains.any (fun d => inStr d (pyLower v1)) = true)
    then ['-'] else v1) with hv2
  set v3 := (if v2 ≠ ['-'] ∧ in_blob v2 blob = false then ['-'] else v2)
    with hv3
  by_cases h4 : v3 = ['-']
  · rw [if_pos h4]
    by_cases hfound : any_domain_in_links domains links = []
    · rw [if_pos hfound]
      exact Or.inl rfl
    · rw [if_neg hfound]
      exact Or.inr (Or.inl (any_domain_in_links_mem hfound))
  · rw [if_neg h4]
    right; right
    rw [hv3] at h4 ⊢
    by_cases h3 : v2 ≠ ['-'] ∧ in_blob v2 blob = false
    · rw [if_pos h3] at h4
      exact absurd rfl h4
    · rw [if_neg h3] at h4 ⊢
      push_neg at h3
      have hne := h3 h4
      simpa using hne

end Extractors

namespace Extractors

open Py

/-- The final trim keeps the case-insensitive-substring property: if the
pre-trim value either occurs in the blob or already satisfies the
stripped-lowered containment, so does the trimmed value. -/
theorem finalTrim_ci {x blob : Str}
    (hx : x <:+: blob ∨ pyLower (pyStrip x) <:+: pyLower blob)
    (hne : finalTrim x ≠ ['-']) :
    pyLower (finalTrim x) <:+: pyLower blob := by
  rcases finalTrim_cases x with he | he
  · exact absurd he hne
  · rw [he]
    rcases hx with h | h
    · exact pyLower_insub ((pyStrip_insub x).trans h)
    · exact h

theorem finalTrim_digits {x blob : Str}
    (hx : digits_only x <:+: digits_only blob)
    (hne : finalTrim x ≠ ['-']) :
    digits_only (finalTrim x) <:+: digits_only blob := by
  rcases finalTrim_cases x with he | he
  · exact absurd he hne
  · rw [he]
    exact ((filter_insub isPyDigit (pyStrip_insub x)).trans hx)

/-- C1 (amended): in every Evidence Gate output, each accepted (non-`"-"`)
email and social-network value is a case-insensitive literal substring of
the evidence blob; an accepted phone is only guaranteed to match the blob
digits-to-digits; an accepted whatsapp value is either a literal substring
of the blob or a sanitized proposed number accepted because the blob
merely mentions whatsapp. -/
theorem claim1_amended (info : Info) (text : Str) (links : List Str) :
    ((enforce_evidence_info info text links).email ≠ ['-'] →
      pyLower (enforce_evidence_info info text links).email <:+:
        pyLower (mkBlob text links)) ∧
    ((enforce_evidence_info info text links).facebook ≠ ['-'] →
      pyLower (enforce_evidence_info info text links).facebook <:+:
        pyLower (mkBlob text links)) ∧
    ((enforce_evidence_info info text links).instagram ≠ ['-'] →
      pyLower (enforce_evidence_info info text links).instagram <:+:
        pyLower (mkBlob text links)) ∧
    ((enforce_evidence_info info text links).twitter ≠ ['-'] →
      pyLower (enforce_evidence_info info text links).twitter <:+:
        pyLower (mkBlob text links)) ∧
    ((enforce_evidence_info info text links).youtube ≠ ['-'] →
      pyLower (enforce_evidence_info info text links).youtube <:+:
        pyLower (mkBlob text links)) ∧
    ((enforce_evidence_info info text links).phone ≠ ['-'] →
      digits_only (enforce_evidence_info info text links).phone <:+:
        digits_only (mkBlob text links)) ∧
    ((enforce_evidence_info info text links).whatsapp ≠ ['-'] →
      (pyLower (enforce_evidence_info info text links).whatsapp <:+:
          pyLower (mkBlob text links) ∨
        (inStr "whatsapp".data (pyLower (mkBlob text links))
          || inStr "wa ".data (pyLower (mkBlob text links))) = true)) := by
  simp only [enforce_evidence_info]
  set blob := mkBlob text links with hblob
  have hsoc : ∀ domains v,
      finalTrim (socialField domains links blob v) ≠ ['-'] →
      pyLower (finalTrim (socialField domains links blob v)) <:+:
        pyLower blob := by
    intro domains v hne
    apply finalTrim_ci ?_ hne
    rcases socialField_cases domains links blob v with he | he | he
    · exact absurd (by rw [he]; decide) hne
    · exact Or.inl (hblob ▸ link_infix_blob he)
    · exact Or.inr (in_blob_true he)
  refine ⟨?_, hsoc _ info.facebook, hsoc _ info.instagram,
    hsoc _ info.twitter, hsoc _ info.youtube, ?_, ?_⟩
  · intro hne
    apply finalTrim_ci ?_ hne
    rcases emailField_cases blob info.email with he | ⟨r, hr, he⟩ |
        ⟨hib, he⟩
    · exact absurd (by rw [he]; decide) hne
    · rw [he]
      exact Or.inl (emailSearch_insub hr)
    · rw [he]
      exact Or.inr (in_blob_true hib)
  · intro hne
    apply finalTrim_digits ?_ hne
    rcases phoneField_cases blob info.phone with he | ⟨r, hrm, he, hok⟩ |
        ⟨he, hib, hok⟩
    · exact absurd (by rw [he]; decide) hne
    · rw [he]
      exact (sanitize_phone_digits hok).trans
        (filter_insub isPyDigit (phoneFindAll_insub hrm))
    · rw [he]
      have h2 := in_blob_true hib
      rwa [pyStrip_digits_only, pyLower_digits_only, pyLower_digits_only]
        at h2
  · intro hne
    rcases waField_cases blob info.whatsapp with he | ⟨r, hr, he⟩ |
        ⟨he, hkw⟩
    · exact absurd (by rw [he]; decide) hne
    · exact Or.inl (finalTrim_ci (Or.inl (he ▸ waSearch_insub hr)) hne)
    · exact Or.inr hkw

end Extractors

namespace Extractors

open Py

theorem emailMatchAt_ne_nil {s r : Str} (h : emailMatchAt s = some r) :
    r ≠ [] := by
  obtain ⟨rest, k, hs, hl, hdot, hk, hr⟩ := emailMatchAt_some h
  rw [hr]
  simp [hl]

set_option maxRecDepth 40000 in
/-- C1 (counterexample): with proposal phone `"+62 812-3456-789"` and
evidence text `"hubungi 62 812 3456 789 ya"`, the gate keeps the phone as
`"+628123456789"` — a non-sentinel contact value that is not a
case-insensitive literal substring of the evidence blob, refuting the
claim that every accepted contact value literally occurs in the blob. -/
theorem claim1_counterexample :
    (enforce_evidence_info
      ⟨"-".data, "+62 812-3456-789".data, "-".data, "-".data, "-".data,
        "-".data, "-".data⟩
      "hubungi 62 812 3456 789 ya".data []).phone =
      "+628123456789".data ∧
    "+628123456789".data ≠ ['-'] ∧
    ¬ (pyLower "+628123456789".data <:+:
        pyLower (mkBlob "hubungi 62 812 3456 789 ya".data [])) := by
  refine ⟨by decide, by decide, by decide⟩

set_option maxRecDepth 40000 in
/-- C1 (witness): the amended theorem applied at a concrete gate run whose
accepted instagram value is a case-insensitive substring of the blob. -/
theorem claim1_amended_witness :
    pyLower (enforce_evidence_info
      ⟨"-".data, "-".data, "-".data, "-".data,
        "https://instagram.com/kampusku".data, "-".data, "-".data⟩
      "ikuti https://Instagram.com/kampusku di IG".data []).instagram <:+:
      pyLower (mkBlob "ikuti https://Instagram.com/kampusku di IG".data
        []) :=
  (claim1_amended
    ⟨"-".data, "-".data, "-".data, "-".data,
      "https://instagram.com/kampusku".data, "-".data, "-".data⟩
    "ikuti https://Instagram.com/kampusku di IG".data []).2.2.1
    (by decide)

/-- C2 (amended): whenever the proposed email is syntactically valid
(after the optional `mailto:` unwrapping) but fails the case-insensitive
substring check against the blob, the gate outputs exactly the first
`RE_EMAIL` match recovered from the blob (or the sentinel when there is
none); moreover every such recovered value is itself a syntactically
valid email, found at the leftmost matching position. -/
theorem claim2_amended (info : Info) (text : Str) (links : List Str)
    (hvalid : sanitize_email info.email ≠ ['-'])
    (hmiss : in_blob (sanitize_email info.email) (mkBlob text links) =
      false) :
    ((enforce_evidence_info info text links).email =
      match emailSearch (mkBlob text links) with
      | some r => r
      | none => ['-']) ∧
    ∀ r, emailSearch (mkBlob text links) = some r →
      emailFullmatch r = true ∧
      ∃ i, emailMatchAt ((mkBlob text links).drop i) = some r ∧
        ∀ j, j < i → emailMatchAt ((mkBlob text links).drop j) = none := by
  constructor
  · have hfield : emailField (mkBlob text links) info.email =
        match emailSearch (mkBlob text links) with
        | some r => r
        | none => ['-'] := by
      unfold emailField
      dsimp only
      rw [if_pos ⟨hvalid, hmiss⟩]
    have hproj : (enforce_evidence_info info text links).email =
        finalTrim (emailField (mkBlob text links) info.email) := by
      simp only [enforce_evidence_info]
    rw [hproj, hfield]
    cases hs : emailSearch (mkBlob text links) with
    | none => decide
    | some r =>
      obtain ⟨i, hi, -⟩ := searchWith_first
        (show searchWith emailMatchAt (mkBlob text links) = some r from hs)
      have hns := emailMatchAt_nonspace hi
      have hnn : r ≠ [] := emailMatchAt_ne_nil hi
      unfold finalTrim
      rw [pyStrip_eq_self hns, if_neg hnn]
  · intro r hr
    obtain ⟨i, hi, hfirst⟩ := searchWith_first
      (show searchWith emailMatchAt (mkBlob text links) = some r from hr)
    exact ⟨emailMatchAt_full hi, i, hi, hfirst⟩

set_option maxRecDepth 40000 in
/-- C2 (witness): the spec's own example — proposal `fake@nowhere.com`
against evidence containing `contact@example.ac.id` — recovered through
the amended theorem. -/
theorem claim2_amended_witness :
    (enforce_evidence_info
      ⟨"fake@nowhere.com".data, "-".data, "-".data, "-".data, "-".data,
        "-".data, "-".data⟩
      "email kami: contact@example.ac.id terima kasih".data []).email =
      "contact@example.ac.id".data := by
  have h := (claim2_amended
    ⟨"fake@nowhere.com".data, "-".data, "-".data, "-".data, "-".data,
      "-".data, "-".data⟩
    "email kami: contact@example.ac.id terima kasih".data []
    (by decide) (by decide)).1
  rw [h]
  decide

set_option maxRecDepth 40000 in
/-- C2 (counterexample): with the syntactically invalid proposal
`"bukan email"` (which also fails the substring check) and a blob that
does contain the valid email `contact@example.ac.id`, the gate emits the
sentinel instead of recovering the first valid email — refuting the
claim's unconditional "for every proposed email value". -/
theorem claim2_counterexample :
    in_blob "bukan email".data
      (mkBlob "email kami: contact@example.ac.id terima kasih".data []) =
      false ∧
    emailSearch
      (mkBlob "email kami: contact@example.ac.id terima kasih".data []) =
      some "contact@example.ac.id".data ∧
    (enforce_evidence_info
      ⟨"bukan email".data, "-".data, "-".data, "-".data, "-".data,
        "-".data, "-".data⟩
      "email kami: contact@example.ac.id terima kasih".data []).email =
      ['-'] := by
  refine ⟨by decide, by decide, by decide⟩

end Extractors

namespace SameSite

open Py UrlPy

theorem endsWith_iff {p s : Str} : endsWith p s = true ↔ p <:+ s := by
  unfold endsWith
  exact List.isSuffixOf_iff_suffix

theorem pyLower_eq_nil {s : Str} : pyLower s = [] ↔ s = [] := by
  unfold pyLower
  exact List.map_eq_nil_iff

/-- C7 (amended): (1) the informasi `same_site` accepts every pair whose
port-stripped lowercased hosts are equal or stand in a dot-boundary
subdomain relation (candidate host = `sub ++ "." ++ seed host`); (2) the
jalur `same_site` returns true exactly when both lowercased authorities
(ports included — the port is NOT ignored) are nonempty and the
candidate's authority equals the base's or ends with `"." ++ base's`
(one direction only); (3) the spec's two examples hold for both
implementations. -/
theorem claim7_amended :
    (∀ seed u a b, urlsplitE seed = Except.ok a → urlsplitE u = Except.ok b →
      a.netloc ≠ [] → b.netloc ≠ [] →
      (pyLower (InfoUtils.portStrip a.netloc) =
          pyLower (InfoUtils.portStrip b.netloc) ∨
        ∃ sub, pyLower (InfoUtils.portStrip b.netloc) =
          sub ++ '.' :: pyLower (InfoUtils.portStrip a.netloc)) →
      InfoUtils.same_site seed u = true) ∧
    (∀ url base u b, urlsplitE url = Except.ok u →
      urlsplitE base = Except.ok b →
      (JalurUtils.same_site url base = true ↔
        (u.netloc ≠ [] ∧ b.netloc ≠ [] ∧
          (pyLower u.netloc = pyLower b.netloc ∨
            ('.' :: pyLower b.netloc) <:+ pyLower u.netloc)))) ∧
    InfoUtils.same_site "https://ui.ac.id".data "https://pmb.ui.ac.id/x".data
      = true ∧
    InfoUtils.same_site "https://ui.ac.id".data "https://notui.com".data
      = false ∧
    JalurUtils.same_site "https://pmb.ui.ac.id/x".data "https://ui.ac.id".data
      = true ∧
    JalurUtils.same_site "https://notui.com".data "https://ui.ac.id".data
      = false := by
  refine ⟨?_, ?_, by decide, by decide, by decide, by decide⟩
  · intro seed u a b h1 h2 hna hnb hcase
    have hsuf : pyLower (InfoUtils.portStrip a.netloc) <:+
        pyLower (InfoUtils.portStrip b.netloc) := by
      rcases hcase with he | ⟨sub, hs⟩
      · rw [he]
      · rw [hs]
        exact ⟨sub ++ ['.'], by simp⟩
    have hend : endsWith (pyLower (InfoUtils.portStrip a.netloc))
        (pyLower (InfoUtils.portStrip b.netloc)) = true :=
      endsWith_iff.mpr hsuf
    simp only [InfoUtils.same_site, h1, h2]
    rw [if_neg (by simp [hna, hnb]), if_pos (by rw [hend]; rfl)]
  · intro url base u b h1 h2
    simp only [JalurUtils.same_site, h1, h2]
    constructor
    · intro h
      by_cases hc : pyLower u.netloc = [] ∨ pyLower b.netloc = []
      · rw [if_pos (by rcases hc with h' | h' <;> simp [h'])] at h
        exact absurd h (by simp)
      · push_neg at hc
        rw [if_neg (by simp [hc.1, hc.2])] at h
        simp only [Bool.or_eq_true, decide_eq_true_eq] at h
        refine ⟨pyLower_eq_nil.not.mp hc.1, pyLower_eq_nil.not.mp hc.2, ?_⟩
        rcases h with h | h
        · exact Or.inl h
        · exact Or.inr (endsWith_iff.mp h)
    · rintro ⟨hu, hb, hcase⟩
      rw [if_neg (by simp [pyLower_eq_nil, hu, hb])]
      rcases hcase with he | hs
      · simp [he]
      · simp [endsWith_iff.mpr hs]

/-- C7 (witness): the subdomain-acceptance clause of the amended theorem at
the spec's example pair. -/
theorem claim7_amended_witness :
    InfoUtils.same_site "https://ui.ac.id".data
      "https://pmb.ui.ac.id/x".data = true :=
  claim7_amended.1 "https://ui.ac.id".data "https://pmb.ui.ac.id/x".data
    ⟨"https".data, "ui.ac.id".data, [], [], []⟩
    ⟨"https".data, "pmb.ui.ac.id".data, "/x".data, [], []⟩
    rfl rfl (by decide) (by decide)
    (Or.inr ⟨"pmb".data, by decide⟩)

/-- C7 (counterexample): the informasi `same_site` treats the unrelated
hosts `ui.ac.id` and `notui.ac.id` as same-site (raw `endswith`, no dot
boundary), and the jalur `same_site` does not ignore the port — both
refuting the claimed characterization. -/
theorem claim7_counterexample :
    InfoUtils.same_site "https://ui.ac.id".data "https://notui.ac.id".data
      = true ∧
    urlsplitE "https://ui.ac.id".data =
      Except.ok ⟨"https".data, "ui.ac.id".data, [], [], []⟩ ∧
    urlsplitE "https://notui.ac.id".data =
      Except.ok ⟨"https".data, "notui.ac.id".data, [], [], []⟩ ∧
    pyLower (InfoUtils.portStrip "ui.ac.id".data) = "ui.ac.id".data ∧
    pyLower (InfoUtils.portStrip "notui.ac.id".data) = "notui.ac.id".data ∧
    "notui.ac.id".data ≠ "ui.ac.id".data ∧
    endsWith ('.' :: "ui.ac.id".data) "notui.ac.id".data = false ∧
    endsWith ('.' :: "notui.ac.id".data) "ui.ac.id".data = false ∧
    JalurUtils.same_site "https://ui.ac.id:8080/x".data
      "https://ui.ac.id".data = false :=
  ⟨by decide, rfl, rfl, by decide, by decide, by decide, by decide,
    by decide, by decide⟩

end SameSite

namespace Fetch

open Py

theorem fetchRetryGo_blocked (r : FetchResult)
    (h1 : ¬(r.ok = true ∧ pyStrip r.text ≠ []))
    (h2 : looks_blocked r = true) :
    ∀ rem t last, fetchRetryGo (fun _ => r) t rem last =
      ((if rem = 0 then last else some r), t + rem) := by
  intro rem
  induction rem with
  | zero => intro t last; rfl
  | succ n ih =>
    intro t last
    show fetchRetryGo (fun _ => r) t (n + 1) last = _
    rw [fetchRetryGo, if_neg h1, if_pos h2, ih]
    cases n <;> simp
    omega

/-- C6: blocked-page classification and retry.  (1) For every fetch
outcome assembled by the success path of `PlaywrightFetcher.fetch`,
`_looks_blocked` returns true exactly when a challenge marker is present
("just a moment" in the lowered title, or "checking your browser" in the
lowered text) or the call failed (`ok = false`) AND the stripped text is
shorter than 80 characters — the conjunction, not either half alone.
(2) A fetch whose title carries "just a moment" is classified blocked and
not ok; `_fetch_with_retry` with `tries = 2` then performs both fetch
calls and surfaces the last blocked result as a value instead of raising. -/
theorem claim6 :
    (∀ rp status title text fu,
      (looks_blocked (classify rp status title text fu) = true ↔
        ((inStr "just a moment".data (pyLower title) = true ∨
          inStr "checking your browser".data (pyLower text) = true) ∨
         ((classify rp status title text fu).ok = false ∧
          (pyStrip text).length < 80)))) ∧
    (∀ rp status title text fu,
      inStr "just a moment".data (pyLower title) = true →
      looks_blocked (classify rp status title text fu) = true ∧
      (classify rp status title text fu).ok = false ∧
      fetch_with_retry (fun _ => classify rp status title text fu) 2 =
        (some (classify rp status title text fu), 2)) := by
  constructor
  · intro rp status title text fu
    by_cases hm : (inStr "just a moment".data (pyLower title)
        || inStr "checking your browser".data (pyLower text)) = true
    · have herr : (classify rp status title text fu).error =
          "blocked_cloudflare_like".data := by
        simp only [classify, hm, if_true]
      have hLB : looks_blocked (classify rp status title text fu) = true := by
        unfold looks_blocked
        rw [herr, if_pos (by decide)]
      rw [hLB]
      simp only [Bool.or_eq_true] at hm
      simp [hm]
    · have herr : (classify rp status title text fu).error = [] := by
        simp only [classify, hm, if_false, Bool.false_eq_true]
      have htext : (classify rp status title text fu).text = text := by
        simp [classify]
      simp only [Bool.or_eq_true, not_or, Bool.not_eq_true] at hm
      unfold looks_blocked
      rw [herr, htext, if_neg (by decide)]
      simp only [hm.1, hm.2, Bool.false_eq_true, false_or]
      cases hok : (classify rp status title text fu).ok <;>
        simp [hok]
  · intro rp status title text fu h1
    have hok : (classify rp status title text fu).ok = false := by
      simp [classify, h1]
    have herr : (classify rp status title text fu).error =
        "blocked_cloudflare_like".data := by
      simp [classify, h1]
    have hLB : looks_blocked (classify rp status title text fu) = true := by
      unfold looks_blocked
      rw [herr, if_pos (by decide)]
    refine ⟨hLB, hok, ?_⟩
    unfold fetch_with_retry
    rw [fetchRetryGo_blocked _ (by simp [hok]) hLB 2 0 none]
    simp

end Fetch

namespace Fetch

/-- C6 (witness): the claim's scenario concretely — a response titled
"Just a moment..." with near-empty text is blocked, and the retry wrapper
makes both calls and surfaces the blocked result. -/
theorem claim6_witness :
    looks_blocked (classify true 200 "Just a moment...".data " ".data
      "https://u.example".data) = true ∧
    fetch_with_retry
      (fun _ => classify true 200 "Just a moment...".data " ".data
        "https://u.example".data) 2 =
      (some (classify true 200 "Just a moment...".data " ".data
        "https://u.example".data), 2) := by
  have h := claim6.2 true 200 "Just a moment...".data " ".data
    "https://u.example".data (by decide)
  exact ⟨h.1, h.2.2⟩

end Fetch

namespace RunAll

open Py

theorem getDone_setDone (d : List (Str × Str)) (k v : Str) :
    getDone (setDone d k v) k = some v := by
  induction d with
  | nil => simp [setDone, getDone]
  | cons kv rest ih =>
    obtain ⟨k', v'⟩ := kv
    by_cases h : k' = k
    · simp [setDone, getDone, h]
    · simp only [setDone, if_neg h]
      simpa [getDone, h] using ih

/-- C5 (amended): once a seed's raw website survives `norm_url` (the
call at the top of the loop body, OUTSIDE the `try:`), an exception named
`e` raised while processing the seed is caught, the typed status
`"error:" ++ e` is recorded for the seed's key in the checkpoint
(persisted by the checkpoint event emitted before moving on), and the
loop continues with the remaining seeds.  A `ValueError` raised by
`norm_url` itself is NOT caught and aborts the whole run (see the
counterexample). -/
theorem claim5_amended {ρ : Type} (process : SeedRow → SeedOutcome ρ)
    (s : SeedRow) (rest : List SeedRow) (st : OrchState ρ) (e w : Str)
    (hw : norm_url s.website = Except.ok w)
    (hp : process s = .error e)
    (hnd : getDone st.done (seedKey s w) ≠ some "ok".data) :
    runSeeds process (s :: rest) st =
      runSeeds process rest
        { done := setDone st.done (seedKey s w) ("error:".data ++ e),
          rows := st.rows,
          events := st.events ++ Event.started (seedKey s w) ::
            Event.checkpoint
              (setDone st.done (seedKey s w) ("error:".data ++ e)) ::
            (if st.rows.isEmpty then [] else [Event.snapshot st.rows]) } ∧
    getDone (setDone st.done (seedKey s w) ("error:".data ++ e))
      (seedKey s w) = some ("error:".data ++ e) := by
  constructor
  · rw [runSeeds, hw]
    dsimp only
    rw [if_neg hnd, hp]
  · exact getDone_setDone _ _ _

set_option maxRecDepth 40000 in
/-- C5 (counterexample): a seed whose raw website is `"http://[a#b"`
makes `norm_url` raise (`urldefrag` rebuilds through `urlparse`, which
raises `ValueError` on the unbalanced bracket) at the top of the loop
body, outside the `try:`: the whole run aborts with no `"error:<type>"`
status recorded and the following seed never processed — even though the
per-seed processing itself never raises. -/
theorem claim5_counterexample :
    norm_url "http://[a#b".data =
      Except.error "Invalid IPv6 URL".data ∧
    freshRun (fun _ => (SeedOutcome.ok 0 : SeedOutcome Nat))
      [⟨0, "U".data, "http://[a#b".data⟩,
       ⟨1, "V".data, "https://v.ac.id".data⟩] [] =
      Except.error "Invalid IPv6 URL".data :=
  ⟨rfl, rfl⟩

/-- C5 (witness): a concrete erroring seed (with a normalizable website)
from an empty checkpoint ends up recorded as `error:TimeoutError` under
its key. -/
theorem claim5_amended_witness :
    getDone
      (setDone []
        (seedKey ⟨0, "U".data, "https://u.ac.id".data⟩
          "https://u.ac.id".data)
        ("error:".data ++ "TimeoutError".data))
      (seedKey ⟨0, "U".data, "https://u.ac.id".data⟩
        "https://u.ac.id".data) =
      some ("error:".data ++ "TimeoutError".data) :=
  (claim5_amended (ρ := Nat) (fun _ => .error "TimeoutError".data)
    ⟨0, "U".data, "https://u.ac.id".data⟩ [] ⟨[], [], []⟩
    "TimeoutError".data "https://u.ac.id".data rfl rfl
    (by simp [getDone])).2

end RunAll

namespace RunAll

open Py

theorem getDone_setDone_ne (d : List (Str × Str)) {k k' : Str} (v : Str)
    (hne : k' ≠ k) : getDone (setDone d k v) k' = getDone d k' := by
  induction d with
  | nil => simp [setDone, getDone, Ne.symm hne]
  | cons kv rest ih =>
    obtain ⟨a, b⟩ := kv
    by_cases h : a = k
    · subst h
      simp [setDone, getDone, Ne.symm hne]
    · simp only [setDone, if_neg h]
      by_cases h' : a = k'
      · simp [getDone, h']
      · simp only [getDone, List.find?] at ih ⊢
        have hd : (decide (a = k') : Bool) = false := by
          simpa using h'
        rw [hd]
        exact ih

theorem getDone_nil (k : Str) : getDone [] k = none := rfl

theorem runSeeds_append {ρ : Type} (process : SeedRow → SeedOutcome ρ)
    (xs ys : List SeedRow) : ∀ st : OrchState ρ,
    runSeeds process (xs ++ ys) st =
      match runSeeds process xs st with
      | Except.error e => Except.error e
      | Except.ok st1 => runSeeds process ys st1 := by
  induction xs with
  | nil => intro st; rfl
  | cons x xs ih =>
    intro st
    rw [List.cons_append, runSeeds, runSeeds]
    cases hw : norm_url x.website with
    | error e => rfl
    | ok w =>
      dsimp only
      by_cases h : getDone st.done (seedKey x w) = some "ok".data
      · rw [if_pos h, if_pos h, ih]
      · rw [if_neg h, if_neg h]
        cases hpx : process x with
        | ok row => exact ih _
        | error e => exact ih _

theorem runSeeds_skips {ρ : Type} (process : SeedRow → SeedOutcome ρ)
    (wf : SeedRow → Str) :
    ∀ (seeds : List SeedRow) (st : OrchState ρ),
    (∀ s ∈ seeds, norm_url s.website = Except.ok (wf s)) →
    (∀ s ∈ seeds, getDone st.done (seedKey s (wf s)) = some "ok".data) →
    runSeeds process seeds st =
      Except.ok ⟨st.done, st.rows, st.events ++
        seeds.map (fun s => Event.skip (seedKey s (wf s)))⟩ := by
  intro seeds
  induction seeds with
  | nil =>
    intro st _ _
    simp [runSeeds]
  | cons s rest ih =>
    intro st hw h
    rw [runSeeds, hw s (List.mem_cons_self s rest)]
    dsimp only
    rw [if_pos (h s (List.mem_cons_self s rest))]
    rw [ih { done := st.done, rows := st.rows,
             events := st.events ++ [Event.skip (seedKey s (wf s))] }
        (fun t ht => hw t (List.mem_cons_of_mem s ht))
        (fun t ht => h t (List.mem_cons_of_mem s ht))]
    simp

theorem filterMap_startedKey_skips {ρ : Type} (wf : SeedRow → Str) :
    ∀ seeds : List SeedRow,
    ((seeds.map
      (fun s => (Event.skip (seedKey s (wf s)) : Event ρ))).filterMap
      startedKey) = [] := by
  intro seeds
  induction seeds with
  | nil => rfl
  | cons s rest ih => simp [startedKey, ih]

theorem runSeeds_allOk {ρ : Type} (process : SeedRow → SeedOutcome ρ)
    (wf : SeedRow → Str) :
    ∀ (seeds : List SeedRow) (st : OrchState ρ),
    (∀ s ∈ seeds, norm_url s.website = Except.ok (wf s)) →
    (∀ s ∈ seeds, (process s).isOk = true) →
    (∀ s ∈ seeds, getDone st.done (seedKey s (wf s)) ≠ some "ok".data) →
    (seeds.map (fun s => seedKey s (wf s))).Nodup →
    ∃ st', runSeeds process seeds st = Except.ok st' ∧
      st'.rows = st.rows ++ seeds.flatMap (fun s => rowsOf (process s)) ∧
      st'.events.filterMap startedKey =
        st.events.filterMap startedKey ++
          seeds.map (fun s => seedKey s (wf s)) ∧
      st'.events.countP Event.isCheckpoint =
        st.events.countP Event.isCheckpoint + seeds.length ∧
      st'.events.countP Event.isSnapshot =
        st.events.countP Event.isSnapshot + seeds.length ∧
      ∀ key, getDone st'.done key =
        (if key ∈ seeds.map (fun s => seedKey s (wf s)) then some "ok".data
         else getDone st.done key) := by
  intro seeds
  induction seeds with
  | nil =>
    intro st _ _ _ _
    exact ⟨st, rfl, by simp, by simp, by simp, by simp,
      fun key => by simp⟩
  | cons s rest ih =>
    intro st hw hok hnd hnodup
    obtain ⟨row, hrow⟩ : ∃ row, process s = .ok row := by
      cases hps : process s with
      | ok row => exact ⟨row, rfl⟩
      | error e =>
        have hbad := hok s (List.mem_cons_self s rest)
        rw [hps] at hbad
        exact absurd hbad (by simp [SeedOutcome.isOk])
    have hkey : seedKey s (wf s) ∉
        rest.map (fun t => seedKey t (wf t)) := by
      have hx := hnodup
      simp only [List.map_cons, List.nodup_cons] at hx
      exact hx.1
    obtain ⟨st', hrun, ir, ie, ic, isn, idn⟩ := ih
      { done := setDone st.done (seedKey s (wf s)) "ok".data,
        rows := st.rows ++ [row],
        events := st.events ++ [Event.started (seedKey s (wf s)),
          Event.checkpoint (setDone st.done (seedKey s (wf s)) "ok".data),
          Event.snapshot (st.rows ++ [row])] }
      (fun t ht => hw t (List.mem_cons_of_mem s ht))
      (fun t ht => hok t (List.mem_cons_of_mem s ht))
      (fun t ht => by
        have hne : seedKey t (wf t) ≠ seedKey s (wf s) := by
          intro he
          exact hkey
            (he ▸ List.mem_map_of_mem (fun t => seedKey t (wf t)) ht)
        show getDone (setDone st.done (seedKey s (wf s)) "ok".data)
          (seedKey t (wf t)) ≠ some "ok".data
        rw [getDone_setDone_ne _ _ hne]
        exact hnd t (List.mem_cons_of_mem s ht))
      (by
        have hx := hnodup
        simp only [List.map_cons, List.nodup_cons] at hx
        exact hx.2)
    refine ⟨st', ?_, ?_, ?_, ?_, ?_, ?_⟩
    · rw [runSeeds, hw s (List.mem_cons_self s rest)]
      dsimp only
      rw [if_neg (hnd s (List.mem_cons_self s rest)), hrow]
      exact hrun
    · rw [ir]
      simp [rowsOf, hrow]
    · rw [ie]
      simp [startedKey, List.filterMap_append]
    · rw [ic]
      simp only [List.countP_append, List.length_cons]
      have hone : List.countP Event.isCheckpoint
          [Event.started (seedKey s (wf s)),
           Event.checkpoint (setDone st.done (seedKey s (wf s)) "ok".data),
           (Event.snapshot (st.rows ++ [row]) : Event ρ)] = 1 := by
        simp [List.countP, List.countP.go, Event.isCheckpoint]
      rw [hone]
      omega
    · rw [isn]
      simp only [List.countP_append, List.length_cons]
      have hone : List.countP Event.isSnapshot
          [Event.started (seedKey s (wf s)),
           Event.checkpoint (setDone st.done (seedKey s (wf s)) "ok".data),
           (Event.snapshot (st.rows ++ [row]) : Event ρ)] = 1 := by
        simp [List.countP, List.countP.go, Event.isSnapshot]
      rw [hone]
      omega
    · intro key
      rw [idn key]
      by_cases hk : key ∈ rest.map (fun t => seedKey t (wf t))
      · rw [if_pos hk, if_pos (by simp [hk])]
      · rw [if_neg hk]
        by_cases hks : key = seedKey s (wf s)
        · subst hks
          show getDone (setDone st.done (seedKey s (wf s)) "ok".data)
            (seedKey s (wf s)) = _
          rw [getDone_setDone, if_pos (by simp)]
        · show getDone (setDone st.done (seedKey s (wf s)) "ok".data)
            key = _
          rw [getDone_setDone_ne _ _ hks, if_neg (by simp [hks, hk])]

/-- C4 (amended): in the all-success scenario — every seed's website
normalizes without a `ValueError`, every seed's processing succeeds and
the seed keys are pairwise distinct — resume semantics holds: a first run
over the first `k` seeds followed by a second run over the whole list
against the stored checkpoint processes each seed exactly once across the
two runs (the second run starts exactly the seeds after `k`), and the
concatenation of the two runs' accumulated rows equals one full
uninterrupted run's rows; moreover a full run emits exactly one
checkpoint write and one incremental snapshot per seed.  (Without the
all-success hypothesis the claim fails: erroring seeds are re-processed
by the second run, and an error with no accumulated rows writes no
snapshot — see the counterexample.) -/
theorem claim4_amended {ρ : Type} (process : SeedRow → SeedOutcome ρ)
    (seeds : List SeedRow) (k : Nat) (wf : SeedRow → Str)
    (hw : ∀ s ∈ seeds, norm_url s.website = Except.ok (wf s))
    (hok : ∀ s ∈ seeds, (process s).isOk = true)
    (hnd : (seeds.map (fun s => seedKey s (wf s))).Nodup) :
    ∃ r1 r2 full : OrchState ρ,
      freshRun process (seeds.take k) [] = Except.ok r1 ∧
      freshRun process seeds r1.done = Except.ok r2 ∧
      freshRun process seeds [] = Except.ok full ∧
      r1.rows ++ r2.rows = full.rows ∧
      r1.events.filterMap startedKey =
        (seeds.take k).map (fun s => seedKey s (wf s)) ∧
      r2.events.filterMap startedKey =
        (seeds.drop k).map (fun s => seedKey s (wf s)) ∧
      full.events.filterMap startedKey =
        seeds.map (fun s => seedKey s (wf s)) ∧
      full.events.countP Event.isCheckpoint = seeds.length ∧
      full.events.countP Event.isSnapshot = seeds.length := by
  have hwt : ∀ s ∈ seeds.take k, norm_url s.website = Except.ok (wf s) :=
    fun s hs => hw s (List.mem_of_mem_take hs)
  have hwd : ∀ s ∈ seeds.drop k, norm_url s.website = Except.ok (wf s) :=
    fun s hs => hw s (List.mem_of_mem_drop hs)
  have htako : ∀ s ∈ seeds.take k, (process s).isOk = true :=
    fun s hs => hok s (List.mem_of_mem_take hs)
  have htaknd : ((seeds.take k).map (fun s => seedKey s (wf s))).Nodup := by
    rw [List.map_take]
    exact (List.take_sublist k _).nodup hnd
  have hdropo : ∀ s ∈ seeds.drop k, (process s).isOk = true :=
    fun s hs => hok s (List.mem_of_mem_drop hs)
  have hdropnd : ((seeds.drop k).map (fun s => seedKey s (wf s))).Nodup := by
    rw [List.map_drop]
    exact (List.drop_sublist k _).nodup hnd
  have hdisj : ∀ key,
      key ∈ (seeds.drop k).map (fun s => seedKey s (wf s)) →
      key ∉ (seeds.take k).map (fun s => seedKey s (wf s)) := by
    intro key hkd hkt
    have hsplit : seeds.map (fun s => seedKey s (wf s)) =
        (seeds.take k).map (fun s => seedKey s (wf s)) ++
          (seeds.drop k).map (fun s => seedKey s (wf s)) := by
      conv_lhs => rw [← List.take_append_drop k seeds]
      rw [List.map_append]
    rw [hsplit] at hnd
    exact (List.nodup_append.mp hnd).2.2 hkt hkd
  have hnil : ∀ key : Str, getDone ([] : List (Str × Str)) key ≠
      some "ok".data := by
    intro key
    simp [getDone]
  obtain ⟨r1, hr1, r1rows, r1ev, -, -, r1done⟩ :=
    runSeeds_allOk process wf (seeds.take k) ⟨[], [], []⟩ hwt htako
      (fun s _ => hnil (seedKey s (wf s))) htaknd
  obtain ⟨full, hfull, frows, fev, fcp, fsn, -⟩ :=
    runSeeds_allOk process wf seeds ⟨[], [], []⟩ hw hok
      (fun s _ => hnil (seedKey s (wf s))) hnd
  have hd1 : ∀ s ∈ seeds.take k,
      getDone r1.done (seedKey s (wf s)) = some "ok".data := by
    intro s hs
    rw [r1done (seedKey s (wf s)),
      if_pos (List.mem_map_of_mem (fun s => seedKey s (wf s)) hs)]
  have hrun2 : runSeeds process seeds (⟨r1.done, [], []⟩ : OrchState ρ) =
      runSeeds process (seeds.drop k)
        ⟨r1.done, [],
          (seeds.take k).map
            (fun s => Event.skip (seedKey s (wf s)))⟩ := by
    conv_lhs => rw [← List.take_append_drop k seeds]
    rw [runSeeds_append,
      runSeeds_skips process wf (seeds.take k) ⟨r1.done, [], []⟩ hwt hd1]
    simp
  obtain ⟨r2, hr2, r2rows, r2ev, -, -, -⟩ :=
    runSeeds_allOk process wf (seeds.drop k)
      ⟨r1.done, [],
        (seeds.take k).map (fun s => Event.skip (seedKey s (wf s)))⟩ hwd
      hdropo
      (fun s hs => by
        show getDone r1.done (seedKey s (wf s)) ≠ some "ok".data
        rw [r1done (seedKey s (wf s)),
          if_neg (hdisj _
            (List.mem_map_of_mem (fun s => seedKey s (wf s)) hs))]
        exact hnil (seedKey s (wf s))) hdropnd
  refine ⟨r1, r2, full, hr1, ?_, hfull, ?_, ?_, ?_, ?_, ?_, ?_⟩
  · show runSeeds process seeds (⟨r1.done, [], []⟩ : OrchState ρ) =
      Except.ok r2
    rw [hrun2]
    exact hr2
  · rw [r1rows, r2rows, frows]
    simp [← List.flatMap_append, List.take_append_drop]
  · rw [r1ev]
    simp
  · rw [r2ev]
    simp [filterMap_startedKey_skips]
    intro a ha
    obtain ⟨s, -, rfl⟩ := List.mem_map.mp (List.mem_of_mem_take ha)
    rfl
  · rw [fev]
    simp
  · rw [fcp]
    simp
  · rw [fsn]
    simp

set_option maxRecDepth 40000 in
/-- C4 (counterexample): a single seed whose processing raises
`RuntimeError`, against an empty checkpoint store.  The first run starts
it and persists a checkpoint, but writes NO incremental snapshot (the
accumulator is empty and the error path only snapshots `if rows:`) —
refuting "after every seed (success or error) ... an incremental snapshot
... is written"; and a second run against the stored checkpoint starts
the same seed again (only the status "ok" is skipped) — refuting
"processes every seed exactly once across the two runs combined". -/
theorem claim4_counterexample :
    (freshRun (fun _ => (SeedOutcome.error "RuntimeError".data :
        SeedOutcome Nat))
      [⟨0, "U".data, "https://u.ac.id".data⟩] []).map
      (fun st => (st.events.countP Event.isStarted,
        st.events.countP Event.isCheckpoint,
        st.events.countP Event.isSnapshot)) = Except.ok (1, 1, 0) ∧
    (freshRun (fun _ => (SeedOutcome.error "RuntimeError".data :
        SeedOutcome Nat))
      [⟨0, "U".data, "https://u.ac.id".data⟩] []).map
      (fun st => st.done) =
      Except.ok [("0:https://u.ac.id".data, "error:RuntimeError".data)] ∧
    (freshRun (fun _ => (SeedOutcome.error "RuntimeError".data :
        SeedOutcome Nat))
      [⟨0, "U".data, "https://u.ac.id".data⟩]
      [("0:https://u.ac.id".data, "error:RuntimeError".data)]).map
      (fun st => st.events.countP Event.isStarted) = Except.ok 1 :=
  ⟨rfl, rfl, rfl⟩

set_option maxRecDepth 40000 in
/-- C4 (witness): the amended resume property at a concrete two-seed,
all-success instance (both websites normalize to themselves) with the
first run covering the first seed. -/
theorem claim4_amended_witness :
    ∃ r1 r2 full : OrchState Nat,
      freshRun (fun s => (SeedOutcome.ok s.idx : SeedOutcome Nat))
        ([⟨0, "U".data, "https://u.ac.id".data⟩,
          ⟨1, "V".data, "https://v.ac.id".data⟩].take 1) [] =
        Except.ok r1 ∧
      freshRun (fun s => (SeedOutcome.ok s.idx : SeedOutcome Nat))
        [⟨0, "U".data, "https://u.ac.id".data⟩,
         ⟨1, "V".data, "https://v.ac.id".data⟩] r1.done =
        Except.ok r2 ∧
      freshRun (fun s => (SeedOutcome.ok s.idx : SeedOutcome Nat))
        [⟨0, "U".data, "https://u.ac.id".data⟩,
         ⟨1, "V".data, "https://v.ac.id".data⟩] [] = Except.ok full ∧
      r1.rows ++ r2.rows = full.rows ∧
      r1.events.filterMap startedKey =
        ([⟨0, "U".data, "https://u.ac.id".data⟩,
          ⟨1, "V".data, "https://v.ac.id".data⟩].take 1).map
          (fun s => seedKey s ((fun s => s.website) s)) ∧
      r2.events.filterMap startedKey =
        ([⟨0, "U".data, "https://u.ac.id".data⟩,
          ⟨1, "V".data, "https://v.ac.id".data⟩].drop 1).map
          (fun s => seedKey s ((fun s => s.website) s)) ∧
      full.events.filterMap startedKey =
        ([⟨0, "U".data, "https://u.ac.id".data⟩,
          ⟨1, "V".data, "https://v.ac.id".data⟩] : List SeedRow).map
          (fun s => seedKey s ((fun s => s.website) s)) ∧
      full.events.countP Event.isCheckpoint =
        ([⟨0, "U".data, "https://u.ac.id".data⟩,
          ⟨1, "V".data, "https://v.ac.id".data⟩] : List SeedRow).length ∧
      full.events.countP Event.isSnapshot =
        ([⟨0, "U".data, "https://u.ac.id".data⟩,
          ⟨1, "V".data, "https://v.ac.id".data⟩] : List SeedRow).length :=
  claim4_amended (fun s => (SeedOutcome.ok s.idx : SeedOutcome Nat))
    [⟨0, "U".data, "https://u.ac.id".data⟩,
     ⟨1, "V".data, "https://v.ac.id".data⟩] 1 (fun s => s.website)
    (by intro s hs; fin_cases hs <;> rfl) (by decide) (by decide)

end RunAll

namespace Crawler

open Py

theorem dedupBestAux_sublist :
    ∀ (cs : List CandidateLink) (seen : List (Str × Str × Str)),
    (dedupBestAux seen cs).Sublist cs := by
  intro cs
  induction cs with
  | nil => intro seen; simp [dedupBestAux]
  | cons d rest ih =>
    intro seen
    rw [dedupBestAux]
    by_cases hd : dedupKey d ∈ seen
    · rw [if_pos hd]
      exact (ih seen).cons d
    · rw [if_neg hd]
      exact (ih _).cons₂ d

theorem dedupBestAux_notMem_seen :
    ∀ (cs : List CandidateLink) (seen : List (Str × Str × Str))
      (c : CandidateLink), c ∈ dedupBestAux seen cs → dedupKey c ∉ seen := by
  intro cs
  induction cs with
  | nil => intro seen c hc; simp [dedupBestAux] at hc
  | cons d rest ih =>
    intro seen c hc
    rw [dedupBestAux] at hc
    by_cases hd : dedupKey d ∈ seen
    · rw [if_pos hd] at hc
      exact ih seen c hc
    · rw [if_neg hd] at hc
      rcases List.mem_cons.mp hc with rfl | hc2
      · exact hd
      · intro hs
        exact ih (dedupKey d :: seen) c hc2 (List.mem_cons_of_mem _ hs)

theorem dedupBestAux_keys_nodup :
    ∀ (cs : List CandidateLink) (seen : List (Str × Str × Str)),
    ((dedupBestAux seen cs).map dedupKey).Nodup := by
  intro cs
  induction cs with
  | nil => intro seen; simp [dedupBestAux]
  | cons d rest ih =>
    intro seen
    rw [dedupBestAux]
    by_cases hd : dedupKey d ∈ seen
    · rw [if_pos hd]
      exact ih seen
    · rw [if_neg hd]
      simp only [List.map_cons, List.nodup_cons]
      refine ⟨?_, ih _⟩
      intro hmem
      obtain ⟨c, hc, hkey⟩ := List.mem_map.mp hmem
      have hno := dedupBestAux_notMem_seen rest (dedupKey d :: seen) c hc
      rw [hkey] at hno
      exact hno (List.mem_cons_self _ _)

theorem dedupBestAux_covers :
    ∀ (cs : List CandidateLink) (seen : List (Str × Str × Str))
      (c : CandidateLink), c ∈ cs → dedupKey c ∉ seen →
      dedupKey c ∈ (dedupBestAux seen cs).map dedupKey := by
  intro cs
  induction cs with
  | nil =>
    intro seen c hc _
    simp at hc
  | cons d rest ih =>
    intro seen c hc hns
    rw [dedupBestAux]
    by_cases hd : dedupKey d ∈ seen
    · rw [if_pos hd]
      rcases List.mem_cons.mp hc with rfl | hc2
      · exact absurd hd hns
      · exact ih seen c hc2 hns
    · rw [if_neg hd]
      simp only [List.map_cons, List.mem_cons]
      rcases List.mem_cons.mp hc with rfl | hc2
      · exact Or.inl rfl
      · by_cases hkd : dedupKey c = dedupKey d
        · exact Or.inl hkd
        · refine Or.inr (ih (dedupKey d :: seen) c hc2 ?_)
          intro hx
          rcases List.mem_cons.mp hx with h1 | h2
          · exact hkd h1
          · exact hns h2

theorem dedupBestAux_first :
    ∀ (cs : List CandidateLink) (seen : List (Str × Str × Str))
      (c : CandidateLink), c ∈ dedupBestAux seen cs →
      cs.find? (fun d => decide (dedupKey d = dedupKey c)) = some c := by
  intro cs
  induction cs with
  | nil => intro seen c hc; simp [dedupBestAux] at hc
  | cons d rest ih =>
    intro seen c hc
    rw [dedupBestAux] at hc
    by_cases hd : dedupKey d ∈ seen
    · rw [if_pos hd] at hc
      have hcs := dedupBestAux_notMem_seen rest seen c hc
      have hne : dedupKey d ≠ dedupKey c := by
        intro he
        exact hcs (he ▸ hd)
      rw [List.find?_cons_of_neg _ (by simpa using hne)]
      exact ih seen c hc
    · rw [if_neg hd] at hc
      rcases List.mem_cons.mp hc with rfl | hc2
      · rw [List.find?_cons_of_pos _ (by simp)]
      · have hcs := dedupBestAux_notMem_seen rest (dedupKey d :: seen) c hc2
        have hne : dedupKey d ≠ dedupKey c := by
          intro he
          exact hcs (he ▸ List.mem_cons_self _ _)
        rw [List.find?_cons_of_neg _ (by simpa using hne)]
        exact ih _ c hc2

/-- C9: candidate dedup is keyed by `(url, kind, context_hint[:80])`: the
deduplicated list is an order-preserving sublist whose keys are pairwise
distinct, every input candidate's key is represented, and every kept
candidate is the FIRST input occurrence of its key; on a two-element list
with equal `(url, kind)`, agreeing 80-character hint prefixes collapse to
the first candidate alone, and differing ones keep both. -/
theorem claim9 :
    (∀ cs : List CandidateLink,
      (dedupBest cs).Sublist cs ∧
      ((dedupBest cs).map dedupKey).Nodup ∧
      (∀ c ∈ cs, dedupKey c ∈ (dedupBest cs).map dedupKey) ∧
      (∀ c ∈ dedupBest cs,
        cs.find? (fun d => decide (dedupKey d = dedupKey c)) = some c)) ∧
    (∀ c1 c2 : CandidateLink, c1.url = c2.url → c1.kind = c2.kind →
      ((c1.context_hint.take 80 = c2.context_hint.take 80 →
        dedupBest [c1, c2] = [c1]) ∧
       (c1.context_hint.take 80 ≠ c2.context_hint.take 80 →
        dedupBest [c1, c2] = [c1, c2]))) := by
  constructor
  · intro cs
    exact ⟨dedupBestAux_sublist cs [], dedupBestAux_keys_nodup cs [],
      fun c hc => dedupBestAux_covers cs [] c hc (by simp),
      fun c hc => dedupBestAux_first cs [] c hc⟩
  · intro c1 c2 hu hk
    constructor
    · intro hh
      have hkey : dedupKey c2 = dedupKey c1 := by
        simp [dedupKey, hu, hk, hh]
      simp [dedupBest, dedupBestAux, hkey]
    · intro hh
      have hkey : dedupKey c2 ≠ dedupKey c1 := by
        intro he
        apply hh
        have h3 := congrArg (fun t => t.2.2) he
        simp only [dedupKey] at h3
        exact h3.symm
      simp [dedupBest, dedupBestAux, hkey]

/-- C9 (witness): two candidates for the same `(url, kind)` whose hints
agree on the first 80 characters collapse to the first occurrence. -/
theorem claim9_witness :
    dedupBest
      [⟨"K".data, "https://k.ac.id".data, "https://k.ac.id/pmb".data,
        "html".data, "https://k.ac.id".data, "Jalur SNBP".data, 1⟩,
       ⟨"K".data, "https://k.ac.id".data, "https://k.ac.id/pmb".data,
        "html".data, "https://k.ac.id/x".data, "Jalur SNBP".data, 2⟩] =
      [⟨"K".data, "https://k.ac.id".data, "https://k.ac.id/pmb".data,
        "html".data, "https://k.ac.id".data, "Jalur SNBP".data, 1⟩] :=
  (claim9.2
    ⟨"K".data, "https://k.ac.id".data, "https://k.ac.id/pmb".data,
      "html".data, "https://k.ac.id".data, "Jalur SNBP".data, 1⟩
    ⟨"K".data, "https://k.ac.id".data, "https://k.ac.id/pmb".data,
      "html".data, "https://k.ac.id/x".data, "Jalur SNBP".data, 2⟩
    rfl rfl).1 (by decide)

end Crawler

namespace Crawler

open Py JalurUtils

theorem nodup_append_singleton {l : List Str} {u : Str} (h : l.Nodup)
    (hu : u ∉ l) : (l ++ [u]).Nodup := by
  rw [List.nodup_append]
  refine ⟨h, List.nodup_singleton u, ?_⟩
  intro a ha hb
  simp only [List.mem_singleton] at hb
  subst hb
  exact hu ha

theorem crawlLoop_inv (F : Str → FetchOut) (campus official start : Str)
    (maxPages : Nat) :
    ∀ (fuel : Nat) (st st' : CrawlState),
    crawlLoop F campus official start maxPages fuel st = Except.ok st' →
    st.visited <+: st'.visited ∧
    (st.visited.Nodup → st'.visited.Nodup) ∧
    (st.visited.length ≤ maxPages → st'.visited.length ≤ maxPages) ∧
    (st.trace = st.visited → st'.trace = st'.visited) := by
  intro fuel
  induction fuel with
  | zero =>
    intro st st' h
    rw [crawlLoop] at h
    injection h with h2
    subst h2
    exact ⟨List.prefix_refl _, id, id, id⟩
  | succ n ih =>
    intro st st' h
    rw [crawlLoop] at h
    split at h
    · injection h with h2
      subst h2
      exact ⟨List.prefix_refl _, id, id, id⟩
    · next hguard =>
      split at h
      · injection h with h2
        subst h2
        exact ⟨List.prefix_refl _, id, id, id⟩
      · next url depth qrest hq =>
        split at h
        · exact ih ⟨qrest, st.visited, st.candidates, st.trace⟩ st' h
        · split at h
          · exact ih ⟨qrest, st.visited, st.candidates, st.trace⟩ st' h
          · split at h
            · exact ih ⟨qrest, st.visited, st.candidates, st.trace⟩ st' h
            · split at h
              · exact ih ⟨qrest, st.visited, st.candidates, st.trace⟩ st' h
              · next hmem _ _ _ =>
                have hlen : st.visited.length < maxPages := by
                  rw [not_or] at hguard
                  exact not_not.mp hguard.2
                dsimp only at h
                have hstep :
                    ∀ st'' : CrawlState,
                    crawlLoop F campus official start maxPages n st'' =
                      Except.ok st' →
                    st''.visited = st.visited ++ [url] →
                    st''.trace = st.trace ++ [url] →
                    st.visited <+: st'.visited ∧
                    (st.visited.Nodup → st'.visited.Nodup) ∧
                    (st.visited.length ≤ maxPages →
                      st'.visited.length ≤ maxPages) ∧
                    (st.trace = st.visited →
                      st'.trace = st'.visited) := by
                  intro st'' h2 hv ht
                  obtain ⟨p1, p2, p3, p4⟩ := ih _ _ h2
                  rw [hv] at p1 p2 p3
                  rw [hv, ht] at p4
                  refine ⟨List.IsPrefix.trans ⟨[url], rfl⟩ p1, ?_, ?_, ?_⟩
                  · intro hnd
                    exact p2 (nodup_append_singleton hnd hmem)
                  · intro _
                    exact p3 (by simpa using hlen)
                  · intro heq
                    exact p4 (by rw [heq])
                split at h
                · exact hstep _ h rfl rfl
                · split at h
                  · exact (Except.noConfusion h)
                  · exact hstep _ h rfl rfl

/-- C3 (amended): for every fetch-oracle, seed and budget, a successful
`crawl_site` run has a duplicate-free loop-visited list of length at most
`max_pages` (the loop guard and the `visited` check), the visited set only
ever grows along the loop (prefix monotonicity, proved in
`crawlLoop_inv`), and the full fetch trace is exactly the entry fetch
followed by the loop-visited list — so the only possible repeat fetch is
the entry URL itself, which the loop does not mark visited beforehand. -/
theorem claim3_amended (F : Str → FetchOut) (campus official : Str)
    (maxPages fuel : Nat) (r : CrawlResult)
    (h : crawl_site F campus official maxPages fuel = Except.ok r) :
    r.visited.Nodup ∧ r.visited.length ≤ maxPages ∧
    (∃ start, normalize_url official = Except.ok start ∧
      r.trace = start :: r.visited) := by
  unfold crawl_site at h
  cases hn : normalize_url official with
  | error e =>
    rw [hn] at h
    dsimp only at h
    exact (Except.noConfusion h)
  | ok start =>
    rw [hn] at h
    dsimp only at h
    split at h
    · exact (Except.noConfusion h)
    · next roots hroots =>
      split at h
      · injection h with h2
        subst h2
        exact ⟨List.nodup_nil, by simp, start, rfl, rfl⟩
      · split at h
        · exact (Except.noConfusion h)
        · next st hloop =>
          injection h with h2
          subst h2
          obtain ⟨p1, p2, p3, p4⟩ := crawlLoop_inv F campus official start
            maxPages fuel ⟨(roots.take 3).map (fun u => (u, 0)), [], [], []⟩
            st hloop
          exact ⟨p2 List.nodup_nil, p3 (Nat.zero_le _),
            start, rfl, by
              show start :: st.trace = start :: st.visited
              rw [p4 rfl]⟩

set_option maxRecDepth 40000 in
/-- C3 (counterexample): when the entry URL itself is returned as a menu
link admission root, it is fetched twice — once by the entry
`fetch_with_menu` and once by the loop — so "never fetches the same
normalized URL twice within one site's run" fails (the loop-visited list
stays duplicate-free; the repeat is the entry fetch). -/
theorem claim3_counterexample :
    crawl_site
      (fun u => ⟨true, u, ["https://pmb.k.ac.id".data], []⟩)
      "K".data "https://pmb.k.ac.id".data 10 10 =
      Except.ok
        ⟨[], ["https://pmb.k.ac.id".data, "https://pmb.k.ac.id".data],
          ["https://pmb.k.ac.id".data]⟩ ∧
    ¬ (["https://pmb.k.ac.id".data,
        "https://pmb.k.ac.id".data] : List Str).Nodup := by
  refine ⟨rfl, by decide⟩

set_option maxRecDepth 40000 in
/-- C3 (witness): the amended theorem applied to a concrete successful
crawl: one loop-visited page, within budget 10, duplicate-free. -/
theorem claim3_amended_witness :
    (["https://pmb.k.ac.id".data] : List Str).Nodup ∧
    (["https://pmb.k.ac.id".data] : List Str).length ≤ 10 := by
  have h := claim3_amended
    (fun u => ⟨true, u, ["https://pmb.k.ac.id".data], []⟩)
    "K".data "https://pmb.k.ac.id".data 10 10
    ⟨[], ["https://pmb.k.ac.id".data, "https://pmb.k.ac.id".data],
      ["https://pmb.k.ac.id".data]⟩ rfl
  exact ⟨h.1, h.2.1⟩

end Crawler

namespace Crawler

open Py JalurUtils

theorem crawlLoop_trace_mono (F : Str → FetchOut)
    (campus official start : Str) (maxPages : Nat) :
    ∀ (fuel : Nat) (st st' : CrawlState),
    crawlLoop F campus official start maxPages fuel st = Except.ok st' →
    st.trace <+: st'.trace := by
  intro fuel
  induction fuel with
  | zero =>
    intro st st' h
    rw [crawlLoop] at h
    injection h with h2
    subst h2
    exact List.prefix_refl _
  | succ n ih =>
    intro st st' h
    rw [crawlLoop] at h
    split at h
    · injection h with h2
      subst h2
      exact List.prefix_refl _
    · split at h
      · injection h with h2
        subst h2
        exact List.prefix_refl _
      · next url depth qrest hq =>
        split at h
        · exact ih ⟨qrest, st.visited, st.candidates, st.trace⟩ st' h
        · split at h
          · exact ih ⟨qrest, st.visited, st.candidates, st.trace⟩ st' h
          · split at h
            · exact ih ⟨qrest, st.visited, st.candidates, st.trace⟩ st' h
            · split at h
              · exact ih ⟨qrest, st.visited, st.candidates, st.trace⟩ st' h
              · dsimp only at h
                split at h
                · exact List.IsPrefix.trans ⟨[url], rfl⟩ (ih _ _ h)
                · split at h
                  · exact (Except.noConfusion h)
                  · exact List.IsPrefix.trans ⟨[url], rfl⟩ (ih _ _ h)

/-- C10 (amended): `_priority` does implement the described coarse ranking
(time-sensitive markers "jadwal"/"timeline" rank 100, admission-track
names snbp/snbt/mandiri rank 80, generic admission entry markers rank 60,
everything else 10), but the crawl loop never consults it: the deque is
consumed strictly FIFO — whenever the queue head passes the admission
checks, it is the very next URL fetched, regardless of the priorities of
anything queued behind it.  So the ranking affects neither traversal order
nor admission; under a binding page budget pages are visited in enqueue
order. -/
theorem claim10_amended :
    (∀ url : Str,
      ((inStr "jadwal".data (pyLower url) = true ∨
        inStr "timeline".data (pyLower url) = true) →
        _priority url = 100) ∧
      (inStr "jadwal".data (pyLower url) = false →
       inStr "timeline".data (pyLower url) = false →
       (∃ k ∈ (["snbp", "snbt", "mandiri"].map String.data),
         inStr k (pyLower url) = true) →
        _priority url = 80) ∧
      (inStr "jadwal".data (pyLower url) = false →
       inStr "timeline".data (pyLower url) = false →
       (∀ k ∈ (["snbp", "snbt", "mandiri"].map String.data),
         inStr k (pyLower url) = false) →
       is_admission_entry (pyLower url) = true →
        _priority url = 60) ∧
      (inStr "jadwal".data (pyLower url) = false →
       inStr "timeline".data (pyLower url) = false →
       (∀ k ∈ (["snbp", "snbt", "mandiri"].map String.data),
         inStr k (pyLower url) = false) →
       is_admission_entry (pyLower url) = false →
        _priority url = 10)) ∧
    (∀ (F : Str → FetchOut) (campus official start : Str)
      (maxPages fuel : Nat) (st st' : CrawlState) (url : Str) (depth : Nat)
      (qrest : List (Str × Nat)),
      st.q = (url, depth) :: qrest →
      st.visited.length < maxPages →
      url ∉ st.visited →
      ¬ MAX_ADMISSION_DEPTH < depth →
      same_site url start = true →
      hard_reject url = false →
      crawlLoop F campus official start maxPages (fuel + 1) st =
        Except.ok st' →
      st.trace ++ [url] <+: st'.trace) := by
  constructor
  · intro url
    refine ⟨?_, ?_, ?_, ?_⟩
    · intro h
      unfold _priority
      rw [if_pos (by rcases h with h | h <;> simp [h])]
    · intro h1 h2 h3
      obtain ⟨k, hk, hki⟩ := h3
      unfold _priority
      rw [if_neg (by simp [h1, h2]),
        if_pos (List.any_eq_true.mpr ⟨k, hk, hki⟩)]
    · intro h1 h2 h3 h4
      unfold _priority
      rw [if_neg (by simp [h1, h2]),
        if_neg (by
          intro hc
          obtain ⟨k, hk, hki⟩ := List.any_eq_true.mp hc
          exact absurd hki (by simp [h3 k hk])), if_pos h4]
    · intro h1 h2 h3 h4
      unfold _priority
      rw [if_neg (by simp [h1, h2]),
        if_neg (by
          intro hc
          obtain ⟨k, hk, hki⟩ := List.any_eq_true.mp hc
          exact absurd hki (by simp [h3 k hk])),
        if_neg (by simp [h4])]
  · intro F campus official start maxPages fuel st st' url depth qrest
      hq hlen hmem hdepth hsite hrej h
    rw [crawlLoop] at h
    rw [if_neg (by
      rw [not_or, hq]
      exact ⟨by simp, not_not_intro hlen⟩)] at h
    rw [hq] at h
    dsimp only at h
    rw [if_neg hmem, if_neg hdepth, if_neg (not_not_intro hsite),
      if_neg (by simp [hrej])] at h
    split at h
    · exact List.IsPrefix.trans (List.prefix_refl _)
        (crawlLoop_trace_mono F campus official start maxPages fuel _ _ h)
    · split at h
      · exact (Except.noConfusion h)
      · exact crawlLoop_trace_mono F campus official start maxPages fuel _ _ h

set_option maxRecDepth 40000 in
/-- C10 (counterexample): with page budget 2 and three admission roots
queued in menu order, the crawler visits the first two queued URLs
(priority 60 each) and never visits the "jadwal" URL even though its
priority is 100 — traversal order under a binding budget is FIFO, not
priority order. -/
theorem claim10_counterexample :
    crawl_site
      (fun u => ⟨true, u,
        ["https://k.ac.id/pmb".data, "https://k.ac.id/pmb/info-umum".data,
         "https://k.ac.id/pmb/jadwal".data], []⟩)
      "K".data "https://k.ac.id".data 2 10 =
      Except.ok
        ⟨[], ["https://k.ac.id".data, "https://k.ac.id/pmb".data,
            "https://k.ac.id/pmb/info-umum".data],
          ["https://k.ac.id/pmb".data,
            "https://k.ac.id/pmb/info-umum".data]⟩ ∧
    _priority "https://k.ac.id/pmb/jadwal".data = 100 ∧
    _priority "https://k.ac.id/pmb".data = 60 ∧
    _priority "https://k.ac.id/pmb/info-umum".data = 60 ∧
    "https://k.ac.id/pmb/jadwal".data ∉
      ["https://k.ac.id/pmb".data, "https://k.ac.id/pmb/info-umum".data] := by
  refine ⟨rfl, by decide, by decide, by decide, by decide⟩

/-- C10 (witness): both halves of the amended theorem at concrete inputs —
the ranking value of a "jadwal" URL, and the FIFO head-first property on a
concrete one-step queue. -/
theorem claim10_amended_witness :
    _priority "https://k.ac.id/pmb/jadwal".data = 100 ∧
    ([] : List Str) ++ ["https://k.ac.id/pmb".data] <+:
      ["https://k.ac.id/pmb".data] := by
  constructor
  · exact (claim10_amended.1 "https://k.ac.id/pmb/jadwal".data).1
      (Or.inl (by decide))
  · exact claim10_amended.2
      (fun u => ⟨true, u, [], []⟩) "K".data "https://k.ac.id".data
      "https://k.ac.id".data 2 5
      ⟨[("https://k.ac.id/pmb".data, 0)], [], [], []⟩
      ⟨[], ["https://k.ac.id/pmb".data], [], ["https://k.ac.id/pmb".data]⟩
      "https://k.ac.id/pmb".data 0 []
      rfl (by decide) (by decide) (by decide) (by decide) (by decide) rfl

end Crawler

namespace UrlPy

open Py

theorem hexVal_hexDigitUpper {n : Nat} (h : n < 16) :
    hexVal (hexDigitUpper n) = n := by
  interval_cases n <;> decide

theorem isHexDigit_hexDigitUpper {n : Nat} (h : n < 16) :
    isHexDigit (hexDigitUpper n) = true := by
  interval_cases n <;> decide

theorem char_toNat_lt (c : Char) : c.toNat < 0x110000 := by
  have h := c.valid
  unfold UInt32.isValidChar Nat.isValidChar at h
  have he : c.toNat = c.val.toNat := rfl
  rcases h with h | ⟨_, h⟩ <;> omega

theorem char_not_surrogate (c : Char) :
    c.toNat < 0xd800 ∨ 0xdfff < c.toNat := by
  have h := c.valid
  unfold UInt32.isValidChar Nat.isValidChar at h
  have he : c.toNat = c.val.toNat := rfl
  rcases h with h | ⟨h, _⟩
  · exact Or.inl (by omega)
  · exact Or.inr (by omega)

theorem utf8Encode_lt (c : Char) : ∀ b ∈ utf8Encode c, b < 256 := by
  intro b hb
  have hv := char_toNat_lt c
  unfold utf8Encode at hb
  dsimp only at hb
  split at hb
  · next h1 =>
    simp only [List.mem_singleton] at hb
    omega
  · split at hb
    · next h2 =>
      simp only [List.mem_cons, List.mem_singleton, List.not_mem_nil,
        or_false] at hb
      rcases hb with rfl | rfl <;> omega
    · split at hb
      · next h3 =>
        simp only [List.mem_cons, List.mem_singleton, List.not_mem_nil,
          or_false] at hb
        rcases hb with rfl | rfl | rfl <;> omega
      · simp only [List.mem_cons, List.mem_singleton, List.not_mem_nil,
          or_false] at hb
        rcases hb with rfl | rfl | rfl | rfl <;> omega

theorem utf8Encode_ne_nil (c : Char) : utf8Encode c ≠ [] := by
  unfold utf8Encode
  dsimp only
  split
  · simp
  · split
    · simp
    · split <;> simp

theorem pctEncode_cons (b : Nat) (bs : List Nat) :
    pctEncode (b :: bs) =
      '%' :: hexDigitUpper (b / 16) :: hexDigitUpper (b % 16) ::
        pctEncode bs := by
  simp [pctEncode]

theorem percentRun_pctEncode : ∀ (bs : List Nat), (∀ b ∈ bs, b < 256) →
    ∀ rest, percentRun (pctEncode bs ++ rest) =
      (bs ++ (percentRun rest).1, (percentRun rest).2) := by
  intro bs
  induction bs with
  | nil =>
    intro _ rest
    simp [pctEncode]
  | cons b tl ih =>
    intro hb rest
    have hblt : b < 256 := hb b (List.mem_cons_self _ _)
    have h16a : b / 16 < 16 := by omega
    have h16b : b % 16 < 16 := by omega
    rw [pctEncode_cons, List.cons_append, List.cons_append,
      List.cons_append, percentRun,
      if_pos ⟨isHexDigit_hexDigitUpper h16a, isHexDigit_hexDigitUpper h16b⟩,
      ih (fun x hx => hb x (List.mem_cons_of_mem _ hx)) rest]
    have hrec : hexVal (hexDigitUpper (b / 16)) * 16 +
        hexVal (hexDigitUpper (b % 16)) = b := by
      rw [hexVal_hexDigitUpper h16a, hexVal_hexDigitUpper h16b]
      omega
    simp [hrec]

theorem percentRun_not_pct {c : Char} (hc : c ≠ '%') (rest : Str) :
    percentRun (c :: rest) = ([], c :: rest) := by
  rw [percentRun.eq_def]
  split
  · next heq =>
    injection heq with ha _
    exact absurd ha hc
  · rfl

theorem percentRun_nil_snd : ∀ s : Str, (percentRun s).1 = [] →
    (percentRun s).2 = s := by
  intro s
  induction s using percentRun.induct with
  | case1 h1 h2 rest hcond ih =>
    rw [percentRun, if_pos hcond]
    intro h
    simp at h
  | case2 h1 h2 rest hcond =>
    rw [percentRun, if_neg hcond]
    intro _
    rfl
  | case3 s hs =>
    rw [percentRun.eq_def]
    split
    · simp_all
    · intro _
      rfl

theorem percentRun_accounting : ∀ s : Str,
    (percentRun s).2.length + 3 * (percentRun s).1.length = s.length := by
  intro s
  induction s using percentRun.induct with
  | case1 h1 h2 rest hcond ih =>
    rw [percentRun, if_pos hcond]
    simp only [List.length_cons]
    omega
  | case2 h1 h2 rest hcond =>
    rw [percentRun, if_neg hcond]
    simp
  | case3 s hs =>
    rw [percentRun.eq_def]
    split
    · simp_all
    · simp

theorem unquoteAux_irrel : ∀ (f1 : Nat), ∀ (f2 : Nat) (s : Str),
    s.length ≤ f1 → s.length ≤ f2 → unquoteAux f1 s = unquoteAux f2 s := by
  intro f1
  induction f1 using Nat.strong_induction_on with
  | _ f1 ih =>
    intro f2 s h1 h2
    cases s with
    | nil => cases f1 <;> cases f2 <;> rfl
    | cons c rest =>
      cases f1 with
      | zero => simp at h1
      | succ g1 =>
        cases f2 with
        | zero => simp at h2
        | succ g2 =>
          simp only [List.length_cons] at h1 h2
          rw [unquoteAux, unquoteAux]
          by_cases hpr : (percentRun (c :: rest)).1 = []
          · rw [if_pos hpr, if_pos hpr,
              ih g1 (by omega) g2 rest (by omega) (by omega)]
          · rw [if_neg hpr, if_neg hpr]
            have hacc := percentRun_accounting (c :: rest)
            have hone : 1 ≤ (percentRun (c :: rest)).1.length := by
              cases hh : (percentRun (c :: rest)).1 with
              | nil => exact absurd hh hpr
              | cons x xs => simp
            simp only [List.length_cons] at hacc
            rw [ih g1 (by omega) g2 (percentRun (c :: rest)).2 (by omega)
              (by omega)]

theorem unquote_cons_lit {c : Char} {rest : Str}
    (h : (percentRun (c :: rest)).1 = []) :
    unquote (c :: rest) = c :: unquote rest := by
  unfold unquote
  rw [show (c :: rest).length = rest.length + 1 from rfl, unquoteAux]
  rw [if_pos h]

theorem unquote_run {s : Str} (h : (percentRun s).1 ≠ []) :
    unquote s = utf8Decode (percentRun s).1 ++ unquote (percentRun s).2 := by
  cases s with
  | nil => simp [percentRun] at h
  | cons c rest =>
    unfold unquote
    rw [show (c :: rest).length = rest.length + 1 from rfl, unquoteAux]
    rw [if_neg h]
    have hacc := percentRun_accounting (c :: rest)
    have hone : 1 ≤ (percentRun (c :: rest)).1.length := by
      cases hh : (percentRun (c :: rest)).1 with
      | nil => exact absurd hh h
      | cons x xs => simp
    simp only [List.length_cons] at hacc
    rw [unquoteAux_irrel rest.length (percentRun (c :: rest)).2.length
      (percentRun (c :: rest)).2 (by omega) (by omega)]

theorem utf8DecodeAux_irrel : ∀ (f1 : Nat), ∀ (f2 : Nat) (bs : List Nat),
    bs.length ≤ f1 → bs.length ≤ f2 →
    utf8DecodeAux f1 bs = utf8DecodeAux f2 bs := by
  intro f1
  induction f1 using Nat.strong_induction_on with
  | _ f1 ih =>
    intro f2 bs h1 h2
    cases bs with
    | nil => cases f1 <;> cases f2 <;> rfl
    | cons b bs' =>
      cases f1 with
      | zero => simp at h1
      | succ g1 =>
        cases f2 with
        | zero => simp at h2
        | succ g2 =>
          simp only [List.length_cons] at h1 h2
          have hg1 : g1 < g1 + 1 := by omega
          conv_lhs => rw [utf8DecodeAux.eq_def]
          conv_rhs => rw [utf8DecodeAux.eq_def]
          dsimp only
          split
          · rw [ih g1 hg1 g2 bs' (by omega) (by omega)]
          · split
            · cases bs' with
              | nil => rfl
              | cons b2 rest =>
                simp only [List.length_cons] at h1 h2
                dsimp only
                split
                · rw [ih g1 hg1 g2 rest (by omega) (by omega)]
                · rw [ih g1 hg1 g2 (b2 :: rest) (by simp; omega)
                    (by simp; omega)]
            · split
              · cases bs' with
                | nil => rfl
                | cons b2 bs2 =>
                  simp only [List.length_cons] at h1 h2
                  dsimp only
                  split
                  · cases bs2 with
                    | nil => rfl
                    | cons b3 rest =>
                      simp only [List.length_cons] at h1 h2
                      dsimp only
                      split
                      · rw [ih g1 hg1 g2 rest (by omega) (by omega)]
                      · rw [ih g1 hg1 g2 (b3 :: rest) (by simp; omega)
                          (by simp; omega)]
                  · rw [ih g1 hg1 g2 (b2 :: bs2) (by simp; omega)
                      (by simp; omega)]
              · split
                · cases bs' with
                  | nil => rfl
                  | cons b2 bs2 =>
                    simp only [List.length_cons] at h1 h2
                    dsimp only
                    split
                    · cases bs2 with
                      | nil => rfl
                      | cons b3 bs3 =>
                        simp only [List.length_cons] at h1 h2
                        dsimp only
                        split
                        · cases bs3 with
                          | nil => rfl
                          | cons b4 rest =>
                            simp only [List.length_cons] at h1 h2
                            dsimp only
                            split
                            · rw [ih g1 hg1 g2 rest (by omega) (by omega)]
                            · rw [ih g1 hg1 g2 (b4 :: rest)
                                (by simp; omega) (by simp; omega)]
                        · rw [ih g1 hg1 g2 (b3 :: bs3) (by simp; omega)
                            (by simp; omega)]
                    · rw [ih g1 hg1 g2 (b2 :: bs2) (by simp; omega)
                        (by simp; omega)]
                · rw [ih g1 hg1 g2 bs' (by omega) (by omega)]

theorem utf8DecodeAux_step1 {f b : Nat} {bs : List Nat} (h : b < 0x80) :
    utf8DecodeAux (f + 1) (b :: bs) =
      Char.ofNat b :: utf8DecodeAux f bs := by
  conv_lhs => rw [utf8DecodeAux.eq_def]
  dsimp only
  rw [if_pos h]

theorem utf8DecodeAux_step2 {f b b2 : Nat} {bs : List Nat}
    (h1 : ¬ b < 0x80) (h2 : 0xC2 ≤ b ∧ b ≤ 0xDF) (h3 : cont b2 = true) :
    utf8DecodeAux (f + 1) (b :: b2 :: bs) =
      chr2 b b2 :: utf8DecodeAux f bs := by
  conv_lhs => rw [utf8DecodeAux.eq_def]
  dsimp only
  rw [if_neg h1, if_pos h2, if_pos h3]

theorem utf8DecodeAux_step3 {f b b2 b3 : Nat} {bs : List Nat}
    (h1 : ¬ b < 0x80) (h2 : ¬ (0xC2 ≤ b ∧ b ≤ 0xDF))
    (h2' : 0xE0 ≤ b ∧ b ≤ 0xEF) (h3 : cont2of3 b b2 = true)
    (h4 : cont b3 = true) :
    utf8DecodeAux (f + 1) (b :: b2 :: b3 :: bs) =
      chr3 b b2 b3 :: utf8DecodeAux f bs := by
  conv_lhs => rw [utf8DecodeAux.eq_def]
  dsimp only
  rw [if_neg h1, if_neg h2, if_pos h2', if_pos h3, if_pos h4]

theorem utf8DecodeAux_step4 {f b b2 b3 b4 : Nat} {bs : List Nat}
    (h1 : ¬ b < 0x80) (h2 : ¬ (0xC2 ≤ b ∧ b ≤ 0xDF))
    (h2' : ¬ (0xE0 ≤ b ∧ b ≤ 0xEF)) (h2'' : 0xF0 ≤ b ∧ b ≤ 0xF4)
    (h3 : cont2of4 b b2 = true) (h4 : cont b3 = true)
    (h5 : cont b4 = true) :
    utf8DecodeAux (f + 1) (b :: b2 :: b3 :: b4 :: bs) =
      chr4 b b2 b3 b4 :: utf8DecodeAux f bs := by
  conv_lhs => rw [utf8DecodeAux.eq_def]
  dsimp only
  rw [if_neg h1, if_neg h2, if_neg h2', if_pos h2'', if_pos h3, if_pos h4,
    if_pos h5]

theorem utf8Decode_encode_cons (c : Char) (bs : List Nat) :
    utf8Decode (utf8Encode c ++ bs) = c :: utf8Decode bs := by
  have hv := char_toNat_lt c
  have hs := char_not_surrogate c
  have hofn : Char.ofNat c.toNat = c := Char.ofNat_toNat c
  unfold utf8Encode
  dsimp only
  by_cases h1 : c.toNat < 0x80
  · rw [if_pos h1]
    simp only [List.cons_append, List.nil_append]
    unfold utf8Decode
    rw [show (c.toNat :: bs).length = bs.length + 1 from rfl,
      utf8DecodeAux_step1 h1, hofn]
  · rw [if_neg h1]
    by_cases h2 : c.toNat < 0x800
    · rw [if_pos h2]
      simp only [List.cons_append, List.nil_append]
      unfold utf8Decode
      rw [show ((192 + c.toNat / 64) :: (128 + c.toNat % 64) :: bs).length
          = (bs.length + 1) + 1 from rfl,
        utf8DecodeAux_step2 (by omega) ⟨by omega, by omega⟩
          (by simp [cont]; omega)]
      unfold chr2
      rw [show (192 + c.toNat / 64 - 192) * 64 +
          (128 + c.toNat % 64 - 128) = c.toNat from by omega, hofn,
        utf8DecodeAux_irrel (bs.length + 1) bs.length bs (by omega)
          (le_refl _)]
    · rw [if_neg h2]
      by_cases h3 : c.toNat < 0x10000
      · rw [if_pos h3]
        simp only [List.cons_append, List.nil_append]
        unfold utf8Decode
        rw [show ((224 + c.toNat / 4096) :: (128 + c.toNat / 64 % 64) ::
            (128 + c.toNat % 64) :: bs).length
            = ((bs.length + 1) + 1) + 1 from rfl,
          utf8DecodeAux_step3 (by omega) (by rintro ⟨-, hb⟩; omega)
            ⟨by omega, by omega⟩
            (by
              unfold cont2of3
              split
              · next he =>
                simp [cont]
                omega
              · split
                · next he2 =>
                  simp
                  rcases hs with hs | hs <;> omega
                · simp [cont]
                  omega)
            (by simp [cont]; omega)]
        unfold chr3
        rw [show (224 + c.toNat / 4096 - 224) * 4096 +
            (128 + c.toNat / 64 % 64 - 128) * 64 +
            (128 + c.toNat % 64 - 128) = c.toNat from by omega, hofn,
          utf8DecodeAux_irrel ((bs.length + 1) + 1) bs.length bs (by omega)
            (le_refl _)]
      · rw [if_neg h3]
        simp only [List.cons_append, List.nil_append]
        unfold utf8Decode
        rw [show ((240 + c.toNat / 262144) :: (128 + c.toNat / 4096 % 64) ::
            (128 + c.toNat / 64 % 64) :: (128 + c.toNat % 64) :: bs).length
            = (((bs.length + 1) + 1) + 1) + 1 from rfl,
          utf8DecodeAux_step4 (by omega) (by rintro ⟨-, hb⟩; omega)
            (by rintro ⟨-, hb⟩; omega) ⟨by omega, by omega⟩
            (by
              unfold cont2of4
              split
              · next he =>
                simp [cont]
                omega
              · split
                · next he2 =>
                  simp
                  omega
                · simp [cont]
                  omega)
            (by simp [cont]; omega) (by simp [cont]; omega)]
        unfold chr4
        rw [show (240 + c.toNat / 262144 - 240) * 262144 +
            (128 + c.toNat / 4096 % 64 - 128) * 4096 +
            (128 + c.toNat / 64 % 64 - 128) * 64 +
            (128 + c.toNat % 64 - 128) = c.toNat from by omega, hofn,
          utf8DecodeAux_irrel (((bs.length + 1) + 1) + 1) bs.length bs
            (by omega) (le_refl _)]

theorem hexDigitUpper_ne_plus {n : Nat} (h : n < 16) :
    hexDigitUpper n ≠ '+' := by
  interval_cases n <;> decide

theorem isAlwaysSafe_ne_pct {c : Char} (h : isAlwaysSafe c = true) :
    c ≠ '%' := by
  rintro rfl
  exact absurd h (by decide)

theorem isAlwaysSafe_ne_plus {c : Char} (h : isAlwaysSafe c = true) :
    c ≠ '+' := by
  rintro rfl
  exact absurd h (by decide)

theorem plusToSpace_append (a b : Str) :
    plusToSpace (a ++ b) = plusToSpace a ++ plusToSpace b := by
  simp [plusToSpace]

theorem plusToSpace_pctEncode : ∀ bs : List Nat, (∀ b ∈ bs, b < 256) →
    plusToSpace (pctEncode bs) = pctEncode bs := by
  intro bs
  induction bs with
  | nil => intro _; rfl
  | cons b tl ih =>
    intro h
    have hb : b < 256 := h b (List.mem_cons_self _ _)
    rw [pctEncode_cons]
    simp only [plusToSpace, List.map_cons]
    rw [if_neg (by decide),
      if_neg (hexDigitUpper_ne_plus (show b / 16 < 16 by omega)),
      if_neg (hexDigitUpper_ne_plus (show b % 16 < 16 by omega))]
    have htl := ih (fun x hx => h x (List.mem_cons_of_mem _ hx))
    simp only [plusToSpace] at htl
    rw [htl]

theorem percentRun_fst_not_pct {c : Char} (hc : c ≠ '%') (rest : Str) :
    (percentRun (c :: rest)).1 = [] := by
  rw [percentRun_not_pct hc]

theorem unquote_plus_quote_plus : ∀ s : Str,
    unquote_plus (quote_plus s) = s := by
  intro s
  induction s with
  | nil => rfl
  | cons c t ih =>
    unfold unquote_plus quote_plus at ih ⊢
    rw [List.flatMap_cons, plusToSpace_append]
    by_cases hsp : c = ' '
    · subst hsp
      rw [show plusToSpace (quotePlusChar ' ') = [' '] from by decide,
        List.singleton_append,
        unquote_cons_lit (percentRun_fst_not_pct (by decide) _), ih]
    · by_cases hsafe : isAlwaysSafe c = true
      · rw [show plusToSpace (quotePlusChar c) = [c] from by
          unfold quotePlusChar
          rw [if_neg hsp, if_pos hsafe]
          simp [plusToSpace, isAlwaysSafe_ne_plus hsafe],
          List.singleton_append,
          unquote_cons_lit
            (percentRun_fst_not_pct (isAlwaysSafe_ne_pct hsafe) _), ih]
      · rw [show plusToSpace (quotePlusChar c) =
            pctEncode (utf8Encode c) from by
          unfold quotePlusChar
          rw [if_neg hsp, if_neg hsafe]
          exact plusToSpace_pctEncode _ (utf8Encode_lt c)]
        have hpr := percentRun_pctEncode (utf8Encode c) (utf8Encode_lt c)
          (plusToSpace (t.flatMap quotePlusChar))
        have hne : (percentRun (pctEncode (utf8Encode c) ++
            plusToSpace (t.flatMap quotePlusChar))).1 ≠ [] := by
          rw [hpr]
          simp [utf8Encode_ne_nil c]
        rw [unquote_run hne, hpr]
        dsimp only
        rw [utf8Decode_encode_cons]
        by_cases hR :
            (percentRun (plusToSpace (t.flatMap quotePlusChar))).1 = []
        · rw [hR, percentRun_nil_snd _ hR,
            show (utf8Decode [] : Str) = [] from rfl]
          simpa using ih
        · rw [List.cons_append, ← unquote_run hR, ih]

theorem mem_pctEncode {d : Char} : ∀ bs : List Nat, (∀ b ∈ bs, b < 256) →
    d ∈ pctEncode bs → d = '%' ∨ isHexDigit d = true := by
  intro bs
  induction bs with
  | nil =>
    intro _ hd
    rw [show pctEncode [] = [] from rfl] at hd
    cases hd
  | cons b tl ih =>
    intro hb hd
    have hblt : b < 256 := hb b (List.mem_cons_self _ _)
    rw [pctEncode_cons] at hd
    simp only [List.mem_cons] at hd
    rcases hd with rfl | rfl | rfl | hd
    · exact Or.inl rfl
    · exact Or.inr (isHexDigit_hexDigitUpper (by omega))
    · exact Or.inr (isHexDigit_hexDigitUpper (by omega))
    · exact ih (fun x hx => hb x (List.mem_cons_of_mem _ hx)) hd

theorem quote_plus_safe {d : Char} (hhex : isHexDigit d = false)
    (hplus : d ≠ '+') (hpct : d ≠ '%') (hsafe : isAlwaysSafe d = false) :
    ∀ s : Str, d ∉ quote_plus s := by
  intro s
  induction s with
  | nil => simp [quote_plus]
  | cons c t ih =>
    unfold quote_plus at ih ⊢
    rw [List.flatMap_cons]
    intro hd2
    rcases List.mem_append.mp hd2 with h | h
    · unfold quotePlusChar at h
      split at h
      · simp only [List.mem_singleton] at h
        exact hplus h
      · split at h
        · next hc =>
          simp only [List.mem_singleton] at h
          subst h
          rw [hc] at hsafe
          cases hsafe
        · rcases mem_pctEncode _ (utf8Encode_lt c) h with rfl | hh
          · exact hpct rfl
          · rw [hh] at hhex
            cases hhex
    · exact ih h

theorem quote_plus_no_amp (s : Str) : '&' ∉ quote_plus s :=
  quote_plus_safe (by decide) (by decide) (by decide) (by decide) s

theorem quote_plus_no_eq (s : Str) : '=' ∉ quote_plus s :=
  quote_plus_safe (by decide) (by decide) (by decide) (by decide) s

theorem takeWhile_all_append {p : Char → Bool} :
    ∀ (a : Str) (c : Char) (b : Str), (∀ x ∈ a, p x = true) →
    p c = false → (a ++ c :: b).takeWhile p = a := by
  intro a
  induction a with
  | nil =>
    intro c b _ hc
    simp [List.takeWhile_cons, hc]
  | cons x xs ih =>
    intro c b ha hc
    rw [List.cons_append, List.takeWhile_cons,
      ha x (List.mem_cons_self _ _)]
    rw [ih c b (fun y hy => ha y (List.mem_cons_of_mem _ hy)) hc]
    rfl

theorem drop_len_append (a : Str) (c : Char) (b : Str) :
    (a ++ c :: b).drop (a.length + 1) = b := by
  rw [show a ++ c :: b = (a ++ [c]) ++ b from by simp,
    show a.length + 1 = (a ++ [c]).length from by simp]
  exact List.drop_left _ _

theorem splitFirst_append {c : Char} (a b : Str) (ha : c ∉ a) :
    splitFirst c (a ++ c :: b) = (a, b) := by
  unfold splitFirst
  have ht : (a ++ c :: b).takeWhile (· ≠ c) = a :=
    takeWhile_all_append a c b
      (fun x hx => by
        simp only [decide_eq_true_eq]
        exact fun he => ha (he ▸ hx))
      (by simp)
  rw [ht, drop_len_append]

theorem joinWith_eq_intercalate (sep : Str) : ∀ xs : List Str,
    joinWith sep xs = sep.intercalate xs
  | [] => by simp [joinWith, List.intercalate]
  | [x] => by simp [joinWith, List.intercalate]
  | x :: y :: rest => by
    rw [joinWith, joinWith_eq_intercalate sep (y :: rest)]
    simp [List.intercalate, List.intersperse]

theorem joinWith_cons_ne_nil {sep : Str} {p0 : Str} (h : p0 ≠ []) :
    ∀ rest : List Str, joinWith sep (p0 :: rest) ≠ [] := by
  intro rest
  cases rest with
  | nil => exact h
  | cons y r =>
    rw [joinWith]
    simp [h]

theorem filterMap_eq_self_of {α β : Type} {f : α → Option β} {g : β → α} :
    ∀ l : List β, (∀ x ∈ l, f (g x) = some x) →
    (l.map g).filterMap f = l := by
  intro l
  induction l with
  | nil => intro _; rfl
  | cons x xs ih =>
    intro h
    rw [List.map_cons, List.filterMap_cons, h x (List.mem_cons_self _ _),
      ih (fun y hy => h y (List.mem_cons_of_mem _ hy))]

theorem parse_qsl_urlencode (q : List (Str × Str)) :
    parse_qsl_kbv (urlencode q) = q := by
  cases q with
  | nil => rfl
  | cons kv tl =>
    unfold urlencode parse_qsl_kbv
    have hp0 : quote_plus kv.1 ++ '=' :: quote_plus kv.2 ≠ [] := by simp
    rw [if_neg (by
      rw [List.map_cons]
      exact joinWith_cons_ne_nil hp0 _)]
    rw [joinWith_eq_intercalate,
      List.splitOn_intercalate _ '&'
        (by
          intro p hp
          obtain ⟨x, -, rfl⟩ := List.mem_map.mp hp
          intro hin
          rcases List.mem_append.mp hin with h | h
          · exact quote_plus_no_amp x.1 h
          · rcases List.mem_cons.mp h with h | h
            · exact absurd h (by decide)
            · exact quote_plus_no_amp x.2 h)
        (by simp)]
    refine filterMap_eq_self_of (kv :: tl) ?_
    intro x _
    dsimp only
    rw [if_neg (by simp), if_pos (by simp)]
    rw [splitFirst_append _ _ (quote_plus_no_eq x.1)]
    dsimp only
    rw [unquote_plus_quote_plus, unquote_plus_quote_plus]

set_option maxRecDepth 40000 in
/-- C8 (amended): the jalur `normalize_url` is a non-raising total
function ONLY on inputs whose stripped form parses: when
`urlparse(u.strip())` succeeds, the result rebuilds the URL with the
fragment dropped and the query re-encoded from exactly the non-tracking
parameters; `urlencode`/`parse_qsl` round-trip exactly (so every
non-tracking parameter is preserved, in order, including names and
values), and the filter keeps precisely the pairs whose lowercased key is
outside the tracking denylist; the spec's example holds, and the example's
output is a fixed point of `normalize_url`.  (Unconditional idempotence
and "never raises" are refuted by the counterexample.) -/
theorem claim8_amended :
    (∀ (u : Str) (p : ParseResult),
      pyStrip u ≠ [] → urlparseE (pyStrip u) = Except.ok p →
      JalurUtils.normalize_url u = Except.ok
        (urlunparse p.scheme p.netloc p.path p.params
          (urlencode ((parse_qsl_kbv p.query).filter
            (fun kv => pyLower kv.1 ∉ JalurUtils.TRACKING))) [])) ∧
    (∀ q : List (Str × Str), parse_qsl_kbv (urlencode q) = q) ∧
    (∀ (qs : Str) (kv : Str × Str),
      kv ∈ (parse_qsl_kbv qs).filter
        (fun kv => pyLower kv.1 ∉ JalurUtils.TRACKING) ↔
      (kv ∈ parse_qsl_kbv qs ∧ pyLower kv.1 ∉ JalurUtils.TRACKING)) ∧
    JalurUtils.normalize_url
      "https://x.ac.id/a?b=1&utm_source=y#frag".data =
      Except.ok "https://x.ac.id/a?b=1".data ∧
    JalurUtils.normalize_url "https://x.ac.id/a?b=1".data =
      Except.ok "https://x.ac.id/a?b=1".data := by
  refine ⟨?_, parse_qsl_urlencode, ?_, rfl, rfl⟩
  · intro u p h1 hp
    unfold JalurUtils.normalize_url
    dsimp only
    rw [if_neg h1, hp]
  · intro qs kv
    simp [List.mem_filter]

set_option maxRecDepth 40000 in
/-- C8 (counterexample): `normalize_url` is not idempotent —
`normalize("a #f")` yields `"a "` (fragment dropped before the
already-performed strip), and normalizing that output strips further to
`"a"`; and it does raise: `urlparse` propagates `ValueError` on
`"http://[a"` (unbalanced bracket).  The informasi `normalize_url` cited
by the same claim keeps the tracking parameter `utm_source` (it only
drops the fragment) and raises on a bracketed host too. -/
theorem claim8_counterexample :
    JalurUtils.normalize_url "a #f".data = Except.ok "a ".data ∧
    JalurUtils.normalize_url "a ".data = Except.ok "a".data ∧
    "a ".data ≠ "a".data ∧
    JalurUtils.normalize_url "http://[a".data =
      Except.error "Invalid IPv6 URL".data ∧
    InfoUtils.normalize_url
      "https://x.ac.id/a?b=1&utm_source=y#frag".data =
      Except.ok "https://x.ac.id/a?b=1&utm_source=y".data ∧
    "https://x.ac.id/a?b=1&utm_source=y".data ≠
      "https://x.ac.id/a?b=1".data ∧
    InfoUtils.normalize_url "http://[a#x".data =
      Except.error "Invalid IPv6 URL".data :=
  ⟨rfl, rfl, by decide, rfl, rfl, by decide, rfl⟩

set_option maxRecDepth 40000 in
/-- C8 (witness): the amended theorem's rebuild clause at the spec's own
example URL, with the parse result discharged concretely. -/
theorem claim8_amended_witness :
    JalurUtils.normalize_url
      "https://x.ac.id/a?b=1&utm_source=y#frag".data =
      Except.ok
        (urlunparse "https".data "x.ac.id".data "/a".data []
          (urlencode ((parse_qsl_kbv "b=1&utm_source=y".data).filter
            (fun kv => pyLower kv.1 ∉ JalurUtils.TRACKING))) []) :=
  claim8_amended.1 "https://x.ac.id/a?b=1&utm_source=y#frag".data
    ⟨"https".data, "x.ac.id".data, "/a".data, [], "b=1&utm_source=y".data,
      "frag".data⟩ (by decide) rfl

end UrlPy
